import Mathlib

/-!
# Mirroring of raster images (`zrcadleni.cpp`)

A shallow embedding of the image reader, the two flips, the writer,
`flipImage`, the two comparison operators and `identicalFiles`, followed by
the properties proved about them.

Modelling conventions.
* A file is a list of bytes; a byte is a `Fin 256`.
* `uint16_t` and `uint` values are natural numbers, reduced modulo `2^16`
  resp. `2^32` wherever the C++ arithmetic can leave the range.
* The host is little-endian: the header is read with
  `input.read((char *) &hdr, 8)`, so each 16-bit field is `lo + 256 * hi`.
* The pixel grid `Pixel **` is a list of rows, a row a list of pixels, a pixel
  the list of the bytes of its `imageData` buffer.  Swapping two pointers is
  swapping the two list entries.
* A file system maps a file name to the content of the file, if there is one.
* What the host lets the program write is given by name: a file cannot be
  opened for writing, or it can and the host accepts a number of bytes. An
  output stream that could not be opened, or that was asked for more bytes
  than the host accepts, is no longer good, and every later write fails.
* `T_img::DeallocateMemory` only frees the grid and has no counterpart here.
-/

namespace Zrcadleni

/-! ## Data model -/

/-- One byte of a file or of a pixel buffer. -/
abbrev Byte := Fin 256

/-- Marker of a little-endian file. -/
def ENDIAN_LITTLE : Nat := 0x4949

/-- Marker of a big-endian file. -/
def ENDIAN_BIG : Nat := 0x4d4d

/-- Truncation to `uint16_t`. -/
def u16 (n : Nat) : Nat := n % 65536

/-- Truncation to `uint` (32 bits). -/
def u32 (n : Nat) : Nat := n % 4294967296

/-- Subtraction of two `uint` values. -/
def u32sub (a b : Nat) : Nat := (u32 a + 4294967296 - u32 b) % 4294967296

/-- The header `struct T_hdr`: four `uint16_t` fields. -/
structure T_hdr where
  endian : Nat
  width : Nat
  height : Nat
  format : Nat
deriving DecidableEq

/-- The buffer `imageData` of a `struct Pixel`. -/
abbrev Pixel := List Byte

/-- The image `struct T_img`. -/
structure T_img where
  hdr : T_hdr
  width : Nat
  height : Nat
  bytes_per_pixel : Nat
  pixelData : List (List Pixel)
deriving DecidableEq

/-- The files of the host, by name. -/
abbrev FileSystem := String → Option (List Byte)

/-- What the host grants to a program that opens a file for writing, by name:
`none` when the file cannot be opened, else the number of bytes that the host
accepts for it. -/
abbrev WriteAccess := String → Option Nat

/-- An output stream `ofstream`: whether the file was opened, whether the
stream is still good, the bytes written so far and the number of bytes that
the host still accepts. -/
structure ofstream where
  opened : Bool
  good : Bool
  data : List Byte
  room : Nat
deriving DecidableEq

/-! ## Header codec -/

/-- The expression `(x >> 8) | (x << 8)` assigned to a `uint16_t`. -/
def swap16 (x : Nat) : Nat := u16 ((x >>> 8) ||| (x <<< 8))

/-- Method `T_hdr::endianness`: the returned flag and the header afterwards. -/
def T_hdr.endianness (h : T_hdr) : Bool × T_hdr :=
  if h.endian = ENDIAN_LITTLE then
    (true, h)
  else if h.endian = ENDIAN_BIG then
    (true, { h with width := swap16 h.width,
                    height := swap16 h.height,
                    format := swap16 h.format })
  else
    (false, h)

/-- Method `T_hdr::unset_check`. -/
def T_hdr.unset_check (h : T_hdr) : Bool :=
  -- `~0` is the int with all 32 bits set
  let unset_mask : Nat := u16 4294967295
  let unset_mask : Nat := unset_mask >>> 5
  let unset_bits : Nat := u16 (h.format >>> 5)
  if (unset_bits &&& unset_mask) = 0 then true else false

/-- Method `T_hdr::channels`. -/
def T_hdr.channels (h : T_hdr) : Nat :=
  let channels_mask : Nat := 0x3
  let channels_cnt : Nat := h.format &&& channels_mask
  if channels_cnt = 0 then 1
  else if channels_cnt = 2 then 3
  else if channels_cnt = 3 then 4
  else 0

/-- Method `T_hdr::bits`. -/
def T_hdr.bits (h : T_hdr) : Nat :=
  let bits_mask : Nat := 0x7
  let bits_cnt : Nat := (h.format >>> 2) &&& bits_mask
  if bits_cnt = 0 then 1
  else if bits_cnt = 3 then 8
  else if bits_cnt = 4 then 16
  else 0

/-! ## Reading -/

/-- A 16-bit field of the header as it lies in memory on the host. -/
def word (lo hi : Byte) : Nat := lo.val + 256 * hi.val

/-- The header as `input.read` leaves it in memory from the first eight bytes
of a file, before the byte-order step. -/
def hdrOfBytes (b0 b1 b2 b3 b4 b5 b6 b7 : Byte) : T_hdr :=
  ⟨word b0 b1, word b2 b3, word b4 b5, word b6 b7⟩

/-- The loop over `k` of `T_img::Read`: one `input.read` of one byte for each
of the `bytes_per_pixel` bytes of a pixel; `none` when a read fails. The
result is the pixel and the rest of the stream. -/
def readPixel : Nat → List Byte → Option (Pixel × List Byte)
  | 0, s => some ([], s)
  | _ + 1, [] => none
  | k + 1, b :: s =>
    match readPixel k s with
    | none => none
    | some (p, r) => some (b :: p, r)

/-- The loop over `j` of `T_img::Read`: the `width` pixels of a row. -/
def readRow : Nat → Nat → List Byte → Option (List Pixel × List Byte)
  | 0, _, s => some ([], s)
  | j + 1, bpp, s =>
    match readPixel bpp s with
    | none => none
    | some (p, r) =>
      match readRow j bpp r with
      | none => none
      | some (ps, r2) => some (p :: ps, r2)

/-- The loop over `i` of `T_img::Read`: the `height` rows of the grid. -/
def readGrid : Nat → Nat → Nat → List Byte → Option (List (List Pixel) × List Byte)
  | 0, _, _, s => some ([], s)
  | i + 1, width, bpp, s =>
    match readRow width bpp s with
    | none => none
    | some (row, r) =>
      match readGrid i width bpp r with
      | none => none
      | some (rows, r2) => some (row :: rows, r2)

/-- Method `T_img::Read` on the stream opened for the source: `none` for a file
that could not be opened, else its bytes. The result is `none` where the code
returns `false`, and the image where it returns `true`. -/
def T_img.Read (input : Option (List Byte)) : Option T_img :=
  match input with
  | none => none
  | some file =>
    match file with
    | b0 :: b1 :: b2 :: b3 :: b4 :: b5 :: b6 :: b7 :: rest =>
      let hdr : T_hdr := hdrOfBytes b0 b1 b2 b3 b4 b5 b6 b7
      -- endianness
      let e := hdr.endianness
      if e.1 = false then none else
      let hdr := e.2
      -- setting width, height
      let width := hdr.width
      let height := hdr.height
      if width = 0 ∨ height = 0 then none else
      -- check for unset bits
      if hdr.unset_check = false then none else
      -- channels per pixel
      let channels_cnt := hdr.channels
      if channels_cnt = 0 then none else
      -- bits per channel
      let bits_cnt := hdr.bits
      if bits_cnt = 0 then none else
      -- count of bytes per pixel
      let bytes_per_pixel := u32 (channels_cnt * (bits_cnt >>> 3))
      -- length of the file, as a uint
      let length := u32 file.length
      -- check for the right length
      let head_size := 8
      if u32sub length head_size ≠ u32 (u32 (width * height) * bytes_per_pixel) then none else
      -- read pixels to pixelData
      match readGrid height width bytes_per_pixel rest with
      | none => none
      | some (pixelData, _) => some ⟨hdr, width, height, bytes_per_pixel, pixelData⟩
    | _ => none

/-! ## Writing -/

/-- The low byte of a number. -/
def byteOf (n : Nat) : Byte := ⟨n % 256, Nat.mod_lt n (by decide)⟩

/-- The eight bytes of a header as they lie in memory on the host. -/
def hdrBytes (h : T_hdr) : List Byte :=
  [byteOf h.endian, byteOf (h.endian >>> 8), byteOf h.width, byteOf (h.width >>> 8),
   byteOf h.height, byteOf (h.height >>> 8), byteOf h.format, byteOf (h.format >>> 8)]

/-- The constructor `ofstream output ( dstFileName, ios::binary | ios::out )`
on what the host grants for the name. -/
def ofstream_open (granted : Option Nat) : ofstream :=
  match granted with
  | none => ⟨false, false, [], 0⟩
  | some n => ⟨true, true, [], n⟩

/-- The call `output.write`: on a stream that is not good nothing happens; on
a good stream the bytes are appended when the host accepts them all, else the
stream takes the bytes that the host still accepts and is no longer good. The
value of the call, read as a condition, is the field `good` afterwards. -/
def ostream_write (output : ofstream) (buf : List Byte) : ofstream :=
  if output.good = false then output
  else if buf.length ≤ output.room then
    { output with data := output.data ++ buf, room := output.room - buf.length }
  else
    { output with good := false, data := output.data ++ buf.take output.room, room := 0 }

/-- The loop over `j` of `T_img::Write` for row `i`; after a write that failed
the code returns and no further write is made. -/
def writeRow (img : T_img) (i : Nat) (output : ofstream) : ofstream :=
  (List.range img.width).foldl
    (fun output j =>
      if output.good then
        ostream_write output (((img.pixelData.getD i []).getD j []).take img.bytes_per_pixel)
      else output)
    output

/-- The loop over `i` of `T_img::Write`. -/
def writeGrid (img : T_img) (output : ofstream) : ofstream :=
  (List.range img.height).foldl
    (fun output i => if output.good then writeRow img i output else output) output

/-- Method `T_img::Write` on what the host grants for `dstFileName`: the
returned flag, the image afterwards (the header is swapped in place for a
big-endian file) and the output stream at the end. -/
def T_img.Write (img : T_img) (granted : Option Nat) : Bool × T_img × ofstream :=
  let output := ofstream_open granted
  -- if bytes order is big-endian, the reformat is needed
  let hdr : T_hdr :=
    if img.hdr.endian = ENDIAN_BIG then
      { img.hdr with width := swap16 img.hdr.width,
                     height := swap16 img.hdr.height,
                     format := swap16 img.hdr.format }
    else img.hdr
  let img : T_img := { img with hdr := hdr }
  let output := ostream_write output (hdrBytes hdr)
  if output.good = false then (false, img, output) else
  let output := writeGrid img output
  if output.good = false then (false, img, output) else
  (true, img, output)

/-! ## Flips -/

/-- The three assignments `swap = a[i]; a[i] = a[j]; a[j] = swap`. -/
def swapAt {α : Type} [Inhabited α] (a : List α) (i j : Nat) : List α :=
  let swap := a.getD i default
  let a := a.set i (a.getD j default)
  a.set j swap

/-- Method `T_img::HorizontalFlip`. -/
def T_img.HorizontalFlip (img : T_img) : T_img :=
  let pixelData :=
    (List.range (img.width / 2)).foldl
      (fun pixelData i =>
        (List.range img.height).foldl
          (fun pixelData j =>
            pixelData.set j (swapAt (pixelData.getD j []) i (img.width - 1 - i)))
          pixelData)
      img.pixelData
  { img with pixelData := pixelData }

/-- Method `T_img::VerticalFlip`. -/
def T_img.VerticalFlip (img : T_img) : T_img :=
  let pixelData :=
    (List.range (img.height / 2)).foldl
      (fun pixelData i => swapAt pixelData i (img.height - 1 - i))
      img.pixelData
  { img with pixelData := pixelData }

/-! ## Top level -/

/-- The file system after `dstFileName` has been written with `out`. -/
def FileSystem.store (fs : FileSystem) (dstFileName : String) (out : List Byte) : FileSystem :=
  fun name => if name = dstFileName then some out else fs name

/-- The file system after the output stream for `dstFileName` is closed: a
file that was opened holds the bytes written to the stream, and nothing
changes when the file could not be opened. -/
def FileSystem.close (fs : FileSystem) (dstFileName : String) (output : ofstream) :
    FileSystem :=
  if output.opened then fs.store dstFileName output.data else fs

/-- Function `flipImage`: the returned flag and the file system afterwards. -/
def flipImage (fs : FileSystem) (access : WriteAccess) (srcFileName dstFileName : String)
    (flipHorizontal flipVertical : Bool) : Bool × FileSystem :=
  match T_img.Read (fs srcFileName) with
  | none => (false, fs)
  | some image =>
    let image := if flipHorizontal then image.HorizontalFlip else image
    let image := if flipVertical then image.VerticalFlip else image
    let w := image.Write (access dstFileName)
    if w.1 = false then (false, fs.close dstFileName w.2.2) else
    (true, fs.close dstFileName w.2.2)

/-- The byte `pixelData[i][j].imageData[k]` of an image. -/
def T_img.imageDataAt (img : T_img) (i j k : Nat) : Byte :=
  ((img.pixelData.getD i []).getD j []).getD k 0

/-- The `operator==` on two headers. -/
def T_hdr.operator_eq (hdr1 hdr2 : T_hdr) : Bool :=
  decide (hdr1.endian = hdr2.endian) && decide (hdr1.width = hdr2.width) &&
  decide (hdr1.height = hdr2.height) && decide (hdr1.format = hdr2.format)

/-- The `operator==` on two images: the three nested loops return `false` at
the first byte that differs and `true` when none does. -/
def T_img.operator_eq (img1 img2 : T_img) : Bool :=
  (List.range img1.hdr.height).all fun i =>
    (List.range img1.hdr.width).all fun j =>
      (List.range img1.bytes_per_pixel).all fun k =>
        decide (img1.imageDataAt i j k = img2.imageDataAt i j k)

/-- Function `identicalFiles`. -/
def identicalFiles (fs : FileSystem) (fileName1 fileName2 : String) : Bool :=
  match T_img.Read (fs fileName1) with
  | none => false
  | some file1 =>
    match T_img.Read (fs fileName2) with
    | none => false
    | some _file2 =>
      if T_hdr.operator_eq file1.hdr file1.hdr = false then false
      -- comparing pixel
      else if T_img.operator_eq file1 file1 = false then false
      else true

/-- The comparison `(length - head_size) != width * height * bytes_per_pixel`
of `T_img::Read`, on the header in host order and the length of the file. -/
def lengthMismatch (h : T_hdr) (n : Nat) : Bool :=
  decide (u32sub (u32 n) 8 ≠
    u32 (u32 (h.width * h.height) * u32 (h.channels * (h.bits >>> 3))))

/-! ## Notions used in the statements -/

/-- The grid of the image has `height` rows of `width` pixels each. -/
def T_img.GridShaped (img : T_img) : Prop :=
  img.pixelData.length = img.height ∧ ∀ row ∈ img.pixelData, row.length = img.width

instance (img : T_img) : Decidable img.GridShaped := by
  unfold T_img.GridShaped; infer_instance

/-- The row of the grid at index `r`, when there is one. -/
def T_img.rowAt (img : T_img) (r : Nat) : Option (List Pixel) :=
  img.pixelData[r]?

/-- The pixel at row `r`, column `c`, when both indices are inside the grid. -/
def T_img.pixelAt (img : T_img) (r c : Nat) : Option Pixel :=
  match img.pixelData[r]? with
  | none => none
  | some row => row[c]?

/-- The marker of a file: its first 16-bit field. -/
def markerOf (f : List Byte) : Nat := word (f.getD 0 0) (f.getD 1 0)

/-- The 16-bit field at offset `i` of a file, in the byte order that the
marker of the file declares. -/
def declaredField (f : List Byte) (i : Nat) : Nat :=
  if markerOf f = 0x4d4d then 256 * (f.getD i 0).val + (f.getD (i + 1) 0).val
  else (f.getD i 0).val + 256 * (f.getD (i + 1) 0).val

/-- The header that a file declares. -/
def declaredHdr (f : List Byte) : T_hdr :=
  ⟨markerOf f, declaredField f 2, declaredField f 4, declaredField f 6⟩

/-- The part of `T_img::Read` that follows the byte-order step, on the header
`h` in host order, the length `n` of the file and the bytes `rest` after the
header. -/
def decodeWith (h : T_hdr) (n : Nat) (rest : List Byte) : Option T_img :=
  if ¬ (h.endian = 0x4949 ∨ h.endian = 0x4d4d) then none
  else if h.width = 0 ∨ h.height = 0 then none
  else if h.unset_check = false then none
  else if h.channels = 0 then none
  else if h.bits = 0 then none
  else if u32sub (u32 n) 8 ≠
      u32 (u32 (h.width * h.height) * u32 (h.channels * (h.bits >>> 3))) then none
  else
    match readGrid h.height h.width (u32 (h.channels * (h.bits >>> 3))) rest with
    | none => none
    | some (g, _) => some ⟨h, h.width, h.height, u32 (h.channels * (h.bits >>> 3)), g⟩

/-- The width that a file declares. -/
def widthOf (f : List Byte) : Nat := declaredField f 2

/-- The height that a file declares. -/
def heightOf (f : List Byte) : Nat := declaredField f 4

/-- The format word that a file declares. -/
def formatOf (f : List Byte) : Nat := declaredField f 6

/-- The bits `lo`, ..., `lo + len - 1` of a word, as a number. -/
def bitField (x lo len : Nat) : Nat := x / 2 ^ lo % 2 ^ len

/-- The number of bytes of a pixel that the header of a file declares:
the channel count times the whole bytes of a channel. -/
def bytesPerPixelOf (f : List Byte) : Nat :=
  (declaredHdr f).channels * ((declaredHdr f).bits / 8)

/-- The header of a file is valid: eight bytes are there, the marker is one of
the two, width and height are not zero, the bits 5 to 15 of the format word
are zero, the channel code (bits 0 and 1) is not 01 and the code of the bit
depth (bits 2 to 4) is 000, 011 or 100. -/
def ValidHeader (f : List Byte) : Prop :=
  8 ≤ f.length ∧ (markerOf f = 0x4949 ∨ markerOf f = 0x4d4d) ∧
  widthOf f ≠ 0 ∧ heightOf f ≠ 0 ∧
  bitField (formatOf f) 5 11 = 0 ∧ bitField (formatOf f) 0 2 ≠ 1 ∧
  (bitField (formatOf f) 2 3 = 0 ∨ bitField (formatOf f) 2 3 = 3 ∨ bitField (formatOf f) 2 3 = 4)

instance (f : List Byte) : Decidable (ValidHeader f) := by
  unfold ValidHeader; infer_instance

/-- A well-formed file: a valid header followed by exactly
`width * height * bytesPerPixel` bytes. -/
def WellFormed (f : List Byte) : Prop :=
  ValidHeader f ∧ f.length = 8 + widthOf f * heightOf f * bytesPerPixelOf f

instance (f : List Byte) : Decidable (WellFormed f) := by
  unfold WellFormed; infer_instance

/-- The header as `T_img::Write` writes it and leaves it in the image: with
width, height and format swapped back for a big-endian file. -/
def writtenHdr (h : T_hdr) : T_hdr :=
  if h.endian = ENDIAN_BIG then
    { h with width := swap16 h.width, height := swap16 h.height, format := swap16 h.format }
  else h

/-- The bytes that the loop over `j` of `T_img::Write` takes from row `i`. -/
def rowBytes (img : T_img) (i : Nat) : List Byte :=
  ((List.range img.width).map (fun j =>
    ((img.pixelData.getD i []).getD j []).take img.bytes_per_pixel)).flatten

/-- The bytes of a grid in row-major order. -/
def payloadOf (g : List (List Pixel)) : List Byte := g.flatten.flatten

/-- Every pixel of row `r < height`, column `c < width` is there and has
`bytes_per_pixel` bytes. -/
def T_img.Shaped (img : T_img) : Prop :=
  img.pixelData.length = img.height ∧
  ∀ row ∈ img.pixelData, row.length = img.width ∧ ∀ p ∈ row, p.length = img.bytes_per_pixel

instance (img : T_img) : Decidable img.Shaped := by
  unfold T_img.Shaped; infer_instance

/-- The byte `k` of the pixel at row `i`, column `j`, when the three indices
are inside the grid and the pixel. -/
def T_img.byteAt (img : T_img) (i j k : Nat) : Option Byte :=
  match img.pixelAt i j with
  | none => none
  | some p => p[k]?

/-- The invariant of an image: all pixels are in place and the fields `width`
and `height` are those of the header. -/
def T_img.Inv (img : T_img) : Prop :=
  img.Shaped ∧ img.width = img.hdr.width ∧ img.height = img.hdr.height

instance (img : T_img) : Decidable img.Inv := by
  unfold T_img.Inv; infer_instance

/-- A sequence of calls of the two flips on an image: `true` stands for
`HorizontalFlip` and `false` for `VerticalFlip`. -/
def applyFlips : List Bool → T_img → T_img
  | [], img => img
  | b :: bs, img => applyFlips bs (if b then img.HorizontalFlip else img.VerticalFlip)

/-- The 2x2 image of the end-to-end scenario: little-endian, one channel of
eight bits, payload 00 01 02 03. -/
def sampleFile : List Byte := [0x49, 0x49, 2, 0, 2, 0, 0x0c, 0, 0, 1, 2, 3]

/-- A big-endian file of three rows and two columns, three channels of eight bits. -/
def sampleBigFile : List Byte :=
  [0x4d, 0x4d, 0, 2, 0, 3, 0, 0x0e,
   0, 1, 2, 3, 4, 5, 6, 7, 8, 9, 10, 11, 12, 13, 14, 15, 16, 17]

/-- A file system with the file `in.img` only. -/
def sampleFs : FileSystem := fun name => if name = "in.img" then some sampleFile else none

/-- A host that accepts 4096 bytes for every file. -/
def sampleAccess : WriteAccess := fun _ => some 4096

/-- A host on which no file can be opened for writing. -/
def noAccess : WriteAccess := fun _ => none

/-- A file whose header declares a width of zero. -/
def zeroWidthFile : List Byte := [0x49, 0x49, 0, 0, 1, 0, 0x0c, 0, 7]

/-- A file of `2^32 + 9` bytes: the header of a 1x1 image, little-endian, one
channel of eight bits, followed by `2^32 + 1` zero bytes. -/
def oversizeFile : List Byte :=
  0x49 :: 0x49 :: 1 :: 0 :: 1 :: 0 :: 0x0c :: 0 :: List.replicate 4294967297 0

/-- The 2x2 image of the end-to-end scenario with its last byte changed. -/
def sampleFileChanged : List Byte := [0x49, 0x49, 2, 0, 2, 0, 0x0c, 0, 0, 1, 2, 4]

/-- A file system with `a.img`, with `b.img` of the same header and another
payload, and with `t.img`, which lacks the last byte of its payload. -/
def samplePairFs : FileSystem := fun name =>
  if name = "a.img" then some sampleFile
  else if name = "b.img" then some sampleFileChanged
  else if name = "t.img" then some [0x49, 0x49, 2, 0, 2, 0, 0x0c, 0, 0, 1, 2]
  else none

/-- The eight header bytes of a 2x2 image, little-endian, one channel of one
bit, and nothing after them. -/
def oneBitFile : List Byte := [0x49, 0x49, 2, 0, 2, 0, 0x00, 0]

/-- The header bytes of `oneBitFile` followed by one byte. -/
def oneBitPayloadFile : List Byte := [0x49, 0x49, 2, 0, 2, 0, 0x00, 0, 0xa5]

/-- The eight header bytes of an image of width and height 0x8000,
little-endian, four channels of eight bits, and nothing after them. -/
def wrapFile : List Byte := [0x49, 0x49, 0x00, 0x80, 0x00, 0x80, 0x0f, 0]

/-- The image that `T_img::Read` decodes from `sampleFile`. -/
def sampleDecoded : T_img :=
  ⟨⟨0x4949, 2, 2, 0x0c⟩, 2, 2, 1, [[[0], [1]], [[2], [3]]]⟩

/-- The image that `T_img::Read` decodes from `sampleFileChanged`. -/
def sampleDecodedChanged : T_img :=
  ⟨⟨0x4949, 2, 2, 0x0c⟩, 2, 2, 1, [[[0], [1]], [[2], [4]]]⟩

/-- The image that `T_img::Read` decodes from `sampleBigFile`. -/
def sampleBigDecoded : T_img :=
  ⟨⟨0x4d4d, 2, 3, 0x0e⟩, 2, 3, 3,
   [[[0, 1, 2], [3, 4, 5]], [[6, 7, 8], [9, 10, 11]], [[12, 13, 14], [15, 16, 17]]]⟩

/-- A little-endian image of two rows and three columns, one byte per pixel. -/
def sampleImage : T_img :=
  ⟨⟨0x4949, 3, 2, 0x0c⟩, 3, 2, 1, [[[10], [11], [12]], [[20], [21], [22]]]⟩

/-- An image of three rows and two columns, two bytes per pixel. -/
def sampleTall : T_img :=
  ⟨⟨0x4d4d, 2, 3, 0x10⟩, 2, 3, 2, [[[1, 2], [3, 4]], [[5, 6], [7, 8]], [[9, 10], [11, 12]]]⟩

/-! ## Arithmetic of the header, loops of the reader -/

theorem swap16_word (a b : Byte) : swap16 (word a b) = word b a := by
  have ha := a.isLt
  have hb := b.isLt
  unfold swap16 u16 word
  rw [Nat.shiftRight_eq_div_pow, Nat.shiftLeft_eq]
  have e1 : (a.val + 256 * b.val) / 2 ^ 8 = b.val := by omega
  have e2 : (a.val + 256 * b.val) * 2 ^ 8 = 2 ^ 8 * (a.val + 256 * b.val) + 0 := by omega
  rw [e1, Nat.lor_comm]
  have e3 : 2 ^ 8 * (a.val + 256 * b.val) + b.val = 2 ^ 8 * (a.val + 256 * b.val) ||| b.val :=
    Nat.mul_add_lt_is_or (by omega) _
  have e4 : (a.val + 256 * b.val) * 2 ^ 8 = 2 ^ 8 * (a.val + 256 * b.val) := by omega
  rw [e4, ← e3]
  omega

theorem byteOf_word_lo (a b : Byte) : byteOf (word a b) = a := by
  apply Fin.ext
  have ha := a.isLt
  simp only [byteOf, word]
  omega

theorem byteOf_word_hi (a b : Byte) : byteOf (word a b >>> 8) = b := by
  apply Fin.ext
  have ha := a.isLt
  have hb := b.isLt
  simp only [byteOf, word, Nat.shiftRight_eq_div_pow]
  omega

theorem unset_check_eq (h : T_hdr) (hf : h.format < 65536) :
    h.unset_check = decide (h.format < 32) := by
  unfold T_hdr.unset_check u16
  simp only [Nat.shiftRight_eq_div_pow]
  have e : (4294967295 % 65536 / 2 ^ 5 : Nat) = 2 ^ 11 - 1 := by norm_num
  rw [e, Nat.and_pow_two_sub_one_eq_mod]
  by_cases h32 : h.format < 32
  · simp only [h32, decide_True]
    rw [if_pos (by omega)]
  · simp only [h32, decide_False]
    rw [if_neg (by omega)]

theorem channels_eq (h : T_hdr) :
    h.channels = if h.format % 4 = 0 then 1 else if h.format % 4 = 2 then 3
      else if h.format % 4 = 3 then 4 else 0 := by
  unfold T_hdr.channels
  have e : h.format &&& 3 = h.format % 4 := Nat.and_pow_two_sub_one_eq_mod h.format 2
  simp only [e]

theorem bits_eq (h : T_hdr) :
    h.bits = if h.format / 4 % 8 = 0 then 1 else if h.format / 4 % 8 = 3 then 8
      else if h.format / 4 % 8 = 4 then 16 else 0 := by
  unfold T_hdr.bits
  have e : (h.format >>> 2) &&& 7 = h.format / 4 % 8 := by
    rw [Nat.shiftRight_eq_div_pow]
    exact Nat.and_pow_two_sub_one_eq_mod (h.format / 2 ^ 2) 3
  simp only [e]
theorem readPixel_some (k : Nat) : ∀ (s : List Byte), k ≤ s.length →
    readPixel k s = some (s.take k, s.drop k) := by
  induction k with
  | zero => intro s _; simp [readPixel]
  | succ k ih =>
    intro s hs
    cases s with
    | nil => simp at hs
    | cons b s =>
      simp only [List.length_cons, Nat.add_le_add_iff_right] at hs
      simp [readPixel, ih s hs]

theorem readPixel_none (k : Nat) : ∀ (s : List Byte), s.length < k → readPixel k s = none := by
  induction k with
  | zero => intro s hs; simp at hs
  | succ k ih =>
    intro s hs
    cases s with
    | nil => simp [readPixel]
    | cons b s =>
      simp only [List.length_cons, Nat.add_lt_add_iff_right] at hs
      simp [readPixel, ih s hs]

theorem readRow_some (bpp : Nat) (j : Nat) : ∀ (s : List Byte), j * bpp ≤ s.length →
    ∃ row, readRow j bpp s = some (row, s.drop (j * bpp)) ∧ row.length = j ∧
      (∀ p ∈ row, p.length = bpp) ∧ row.flatten = s.take (j * bpp) := by
  induction j with
  | zero => intro s _; exact ⟨[], by simp [readRow]⟩
  | succ j ih =>
    intro s hs
    have e : (j + 1) * bpp = bpp + j * bpp := by ring
    rw [e] at hs ⊢
    obtain ⟨row, h1, h2, h3, h4⟩ := ih (s.drop bpp) (by rw [List.length_drop]; omega)
    refine ⟨s.take bpp :: row, ?_, ?_, ?_, ?_⟩
    · simp [readRow, readPixel_some bpp s (by omega), h1, Nat.add_comm]
    · simp [h2]
    · intro p hp
      rcases List.mem_cons.mp hp with rfl | hp
      · rw [List.length_take]; omega
      · exact h3 p hp
    · rw [List.flatten_cons, h4, List.take_add]

theorem readRow_none (bpp : Nat) (j : Nat) : ∀ (s : List Byte), s.length < j * bpp →
    readRow j bpp s = none := by
  induction j with
  | zero => intro s hs; simp at hs
  | succ j ih =>
    intro s hs
    have e : (j + 1) * bpp = bpp + j * bpp := by ring
    rw [e] at hs
    by_cases hb : bpp ≤ s.length
    · simp [readRow, readPixel_some bpp s hb, ih (s.drop bpp) (by rw [List.length_drop]; omega)]
    · simp [readRow, readPixel_none bpp s (by omega)]

theorem readGrid_some (w bpp : Nat) (i : Nat) : ∀ (s : List Byte), i * (w * bpp) ≤ s.length →
    ∃ g, readGrid i w bpp s = some (g, s.drop (i * (w * bpp))) ∧ g.length = i ∧
      (∀ row ∈ g, row.length = w ∧ ∀ p ∈ row, p.length = bpp) ∧
      g.flatten.flatten = s.take (i * (w * bpp)) := by
  induction i with
  | zero => intro s _; exact ⟨[], by simp [readGrid]⟩
  | succ i ih =>
    intro s hs
    have e : (i + 1) * (w * bpp) = w * bpp + i * (w * bpp) := by ring
    rw [e] at hs ⊢
    obtain ⟨row, r1, r2, r3, r4⟩ := readRow_some bpp w s (by omega)
    obtain ⟨g, h1, h2, h3, h4⟩ := ih (s.drop (w * bpp)) (by rw [List.length_drop]; omega)
    refine ⟨row :: g, ?_, ?_, ?_, ?_⟩
    · simp [readGrid, r1, h1, Nat.add_comm]
    · simp [h2]
    · intro r hr
      rcases List.mem_cons.mp hr with rfl | hr
      · exact ⟨r2, r3⟩
      · exact h3 r hr
    · rw [List.flatten_cons, List.flatten_append, h4, r4, List.take_add]

theorem readGrid_none (w bpp : Nat) (i : Nat) : ∀ (s : List Byte), s.length < i * (w * bpp) →
    readGrid i w bpp s = none := by
  induction i with
  | zero => intro s hs; simp at hs
  | succ i ih =>
    intro s hs
    have e : (i + 1) * (w * bpp) = w * bpp + i * (w * bpp) := by ring
    rw [e] at hs
    by_cases hb : w * bpp ≤ s.length
    · obtain ⟨row, r1, _⟩ := readRow_some bpp w s hb
      simp [readGrid, r1, ih (s.drop (w * bpp)) (by rw [List.length_drop]; omega)]
    · simp [readGrid, readRow_none bpp w s (by omega)]

theorem getElem?_flatten_uniform {α : Type} (n : Nat) : ∀ (L : List (List α)),
    (∀ l ∈ L, l.length = n) → ∀ (i k : Nat), k < n →
      L.flatten[i * n + k]? = (L[i]?).bind (fun l => l[k]?) := by
  intro L
  induction L with
  | nil => intro _ i k _; simp
  | cons l L ih =>
    intro hL i k hk
    have hl : l.length = n := hL l (List.mem_cons_self _ _)
    cases i with
    | zero =>
      simp only [Nat.zero_mul, Nat.zero_add, List.flatten_cons, List.getElem?_cons_zero,
        Option.some_bind]
      exact List.getElem?_append_left (by omega)
    | succ i =>
      have e : (i + 1) * n + k = l.length + (i * n + k) := by rw [hl]; ring
      rw [List.flatten_cons, e, List.getElem?_append_right (by omega)]
      simp only [Nat.add_sub_cancel_left, List.getElem?_cons_succ]
      exact ih (fun l2 h2 => hL l2 (List.mem_cons_of_mem _ h2)) i k hk
theorem endianness_words (b0 b1 b2 b3 b4 b5 b6 b7 : Byte) :
    (⟨word b0 b1, word b2 b3, word b4 b5, word b6 b7⟩ : T_hdr).endianness =
      if word b0 b1 = 0x4949 then (true, ⟨word b0 b1, word b2 b3, word b4 b5, word b6 b7⟩)
      else if word b0 b1 = 0x4d4d then (true, ⟨word b0 b1, word b3 b2, word b5 b4, word b7 b6⟩)
      else (false, ⟨word b0 b1, word b2 b3, word b4 b5, word b6 b7⟩) := by
  simp only [T_hdr.endianness, ENDIAN_LITTLE, ENDIAN_BIG, swap16_word]

theorem declaredHdr_cons (b0 b1 b2 b3 b4 b5 b6 b7 : Byte) (rest : List Byte) :
    declaredHdr (b0 :: b1 :: b2 :: b3 :: b4 :: b5 :: b6 :: b7 :: rest) =
      if word b0 b1 = 0x4d4d then ⟨word b0 b1, word b3 b2, word b5 b4, word b7 b6⟩
      else ⟨word b0 b1, word b2 b3, word b4 b5, word b6 b7⟩ := by
  simp only [declaredHdr, declaredField, markerOf, List.getD_cons_zero, List.getD_cons_succ]
  split <;> simp [word, Nat.add_comm]

/-- Method `T_img::Read` on a file of at least eight bytes: the checks and the
loops of the code run on the header that the file declares. -/
theorem Read_cons (b0 b1 b2 b3 b4 b5 b6 b7 : Byte) (rest : List Byte) :
    T_img.Read (some (b0 :: b1 :: b2 :: b3 :: b4 :: b5 :: b6 :: b7 :: rest)) =
      decodeWith (declaredHdr (b0 :: b1 :: b2 :: b3 :: b4 :: b5 :: b6 :: b7 :: rest))
        (b0 :: b1 :: b2 :: b3 :: b4 :: b5 :: b6 :: b7 :: rest).length rest := by
  simp only [T_img.Read, hdrOfBytes, decodeWith, endianness_words, declaredHdr_cons]
  by_cases hB : word b0 b1 = 0x4d4d
  · have hL : ¬ word b0 b1 = 0x4949 := by omega
    simp only [hB, hL, if_true, if_false]
    simp
  · by_cases hL : word b0 b1 = 0x4949
    · simp only [hB, hL, if_true, if_false]
      simp
    · simp [hB, hL]

theorem exists_header_of_length {f : List Byte} (h : 8 ≤ f.length) :
    ∃ b0 b1 b2 b3 b4 b5 b6 b7 rest, f = b0 :: b1 :: b2 :: b3 :: b4 :: b5 :: b6 :: b7 :: rest := by
  rcases f with _ | ⟨b0, _ | ⟨b1, _ | ⟨b2, _ | ⟨b3, _ | ⟨b4, _ | ⟨b5, _ | ⟨b6, _ | ⟨b7, rest⟩⟩⟩⟩⟩⟩⟩⟩ <;>
    simp at h
  exact ⟨b0, b1, b2, b3, b4, b5, b6, b7, rest, rfl⟩

theorem Read_of_length {f : List Byte} (h : 8 ≤ f.length) :
    T_img.Read (some f) = decodeWith (declaredHdr f) f.length (f.drop 8) := by
  obtain ⟨b0, b1, b2, b3, b4, b5, b6, b7, rest, rfl⟩ := exists_header_of_length h
  exact Read_cons b0 b1 b2 b3 b4 b5 b6 b7 rest

theorem Read_short {f : List Byte} (h : f.length < 8) : T_img.Read (some f) = none := by
  rcases f with _ | ⟨b0, _ | ⟨b1, _ | ⟨b2, _ | ⟨b3, _ | ⟨b4, _ | ⟨b5, _ | ⟨b6, _ | ⟨b7, rest⟩⟩⟩⟩⟩⟩⟩⟩ <;>
    first
      | rfl
      | (simp at h; omega)

/-! ## The swap loops -/

theorem length_swapAt {α : Type} [Inhabited α] (a : List α) (i j : Nat) :
    (swapAt a i j).length = a.length := by
  simp [swapAt]

theorem getElem?_swapAt {α : Type} [Inhabited α] (a : List α) (i j c : Nat)
    (hi : i < a.length) (hj : j < a.length) :
    (swapAt a i j)[c]? = if c = j then a[i]? else if c = i then a[j]? else a[c]? := by
  simp only [swapAt, List.getElem?_set, List.length_set, List.getD_eq_getElem?_getD,
    List.getElem?_eq_getElem hi, List.getElem?_eq_getElem hj, Option.getD_some]
  by_cases h1 : c = j
  · subst h1; simp [hj]
  · by_cases h2 : c = i
    · subst h2; simp [hi, h1, Ne.symm h1]
    · simp [h1, h2, Ne.symm h1, Ne.symm h2]

/-- After `m` rounds of the swap loop the first `m` and the last `m` entries
are mirrored and the entries between them are still in place. -/
theorem swapLoop_invariant {α : Type} [Inhabited α] (a : List α) (n : Nat) (hn : a.length = n) :
    ∀ m, m ≤ n / 2 →
      ((List.range m).foldl (fun l i => swapAt l i (n - 1 - i)) a).length = n ∧
      ∀ c, ((List.range m).foldl (fun l i => swapAt l i (n - 1 - i)) a)[c]? =
        if c < m ∨ (n - m ≤ c ∧ c < n) then a[n - 1 - c]? else a[c]? := by
  intro m
  induction m with
  | zero =>
    intro _
    refine ⟨by simpa using hn, fun c => ?_⟩
    have : ¬ (n ≤ c ∧ c < n) := by omega
    simp [this]
  | succ m ih =>
    intro hm
    obtain ⟨hl, hc⟩ := ih (by omega)
    rw [List.range_succ, List.foldl_append]
    simp only [List.foldl_cons, List.foldl_nil]
    refine ⟨by rw [length_swapAt]; exact hl, fun c => ?_⟩
    rw [getElem?_swapAt _ _ _ _ (by omega) (by omega), hc, hc, hc]
    by_cases h1 : c = n - 1 - m
    · subst h1
      have e : n - 1 - (n - 1 - m) = m := by omega
      rw [if_pos rfl, if_neg (by omega), if_pos (by omega), e]
    · by_cases h2 : c = m
      · subst h2
        rw [if_neg h1, if_pos rfl, if_neg (by omega), if_pos (by omega)]
      · rw [if_neg h1, if_neg h2]
        by_cases h3 : c < m ∨ (n - m ≤ c ∧ c < n)
        · rw [if_pos h3, if_pos (by omega)]
        · rw [if_neg h3, if_neg (by omega)]

/-- The swap loop over `n / 2` rounds reverses a list of length `n`. -/
theorem swapLoop_eq_reverse {α : Type} [Inhabited α] (a : List α) (n : Nat) (hn : a.length = n) :
    (List.range (n / 2)).foldl (fun l i => swapAt l i (n - 1 - i)) a = a.reverse := by
  obtain ⟨_, hc⟩ := swapLoop_invariant a n hn (n / 2) (le_refl _)
  apply List.ext_getElem?
  intro c
  rw [hc]
  by_cases h : c < n
  · rw [List.getElem?_reverse (by omega), hn]
    by_cases h3 : c < n / 2 ∨ (n - n / 2 ≤ c ∧ c < n)
    · rw [if_pos h3]
    · rw [if_neg h3]
      have e : n - 1 - c = c := by omega
      rw [e]
  · rw [if_neg (by omega)]
    rw [List.getElem?_eq_none (by omega), List.getElem?_eq_none (by simp; omega)]

theorem setLoop_invariant {α : Type} (f : α → α) (d : α) (g : List α) :
    ∀ n, n ≤ g.length →
      ((List.range n).foldl (fun l j => l.set j (f (l.getD j d))) g).length = g.length ∧
      ∀ c, ((List.range n).foldl (fun l j => l.set j (f (l.getD j d))) g)[c]? =
        if c < n then g[c]?.map f else g[c]? := by
  intro n
  induction n with
  | zero => intro _; simp
  | succ n ih =>
    intro hn
    obtain ⟨hl, hc⟩ := ih (by omega)
    rw [List.range_succ, List.foldl_append]
    simp only [List.foldl_cons, List.foldl_nil]
    refine ⟨by rw [List.length_set]; exact hl, fun c => ?_⟩
    rw [List.getElem?_set, List.getD_eq_getElem?_getD, hc, hc, hl]
    by_cases h1 : n = c
    · subst h1
      have hlt : n < g.length := by omega
      simp [hlt, List.getElem?_eq_getElem hlt]
    · rw [if_neg h1]
      by_cases h2 : c < n
      · rw [if_pos h2, if_pos (by omega)]
      · rw [if_neg h2, if_neg (by omega)]

/-- A loop that replaces every entry `j < n` by its image under `f` is `map f`. -/
theorem setLoop_eq_map {α : Type} (f : α → α) (d : α) (g : List α) (n : Nat)
    (hn : g.length = n) :
    (List.range n).foldl (fun l j => l.set j (f (l.getD j d))) g = g.map f := by
  obtain ⟨_, hc⟩ := setLoop_invariant f d g n (by omega)
  apply List.ext_getElem?
  intro c
  rw [hc, List.getElem?_map]
  by_cases h : c < n
  · rw [if_pos h]
  · rw [if_neg h, List.getElem?_eq_none (by omega)]; rfl

/-- The nested loop of the horizontal flip, row by row. -/
theorem mapLoop_eq_map {α : Type} (F : Nat → α → α) (d : α) (h : Nat) :
    ∀ (m : Nat) (g : List α), g.length = h →
      (List.range m).foldl
        (fun l i => (List.range h).foldl (fun l j => l.set j (F i (l.getD j d))) l) g
      = g.map (fun row => (List.range m).foldl (fun r i => F i r) row) := by
  intro m
  induction m with
  | zero => intro g _; simp
  | succ m ih =>
    intro g hg
    rw [List.range_succ, List.foldl_append, ih g hg]
    simp only [List.foldl_cons, List.foldl_nil]
    rw [setLoop_eq_map (F m) d _ h (by simpa using hg), List.map_map]
    apply List.map_congr_left
    intro row _
    simp [List.foldl_append]

/-! ## The flips on a shaped grid -/

theorem HorizontalFlip_pixelData (img : T_img) (hs : img.GridShaped) :
    img.HorizontalFlip.pixelData = img.pixelData.map List.reverse := by
  obtain ⟨hh, hw⟩ := hs
  show (List.range (img.width / 2)).foldl
      (fun pixelData i =>
        (List.range img.height).foldl
          (fun pixelData j =>
            pixelData.set j (swapAt (pixelData.getD j []) i (img.width - 1 - i)))
          pixelData)
      img.pixelData = _
  rw [mapLoop_eq_map (fun i row => swapAt row i (img.width - 1 - i)) [] img.height
    (img.width / 2) img.pixelData hh]
  apply List.map_congr_left
  intro row hrow
  exact swapLoop_eq_reverse row img.width (hw row hrow)

theorem VerticalFlip_pixelData (img : T_img) (hh : img.pixelData.length = img.height) :
    img.VerticalFlip.pixelData = img.pixelData.reverse :=
  swapLoop_eq_reverse img.pixelData img.height hh

theorem HorizontalFlip_GridShaped (img : T_img) (hs : img.GridShaped) :
    img.HorizontalFlip.GridShaped := by
  have e := HorizontalFlip_pixelData img hs
  obtain ⟨hh, hw⟩ := hs
  refine ⟨?_, ?_⟩
  · rw [e, List.length_map]; exact hh
  · intro row hrow
    rw [e, List.mem_map] at hrow
    obtain ⟨r0, hr0, rfl⟩ := hrow
    rw [List.length_reverse]
    exact hw r0 hr0

theorem VerticalFlip_GridShaped (img : T_img) (hs : img.GridShaped) :
    img.VerticalFlip.GridShaped := by
  have e := VerticalFlip_pixelData img hs.1
  obtain ⟨hh, hw⟩ := hs
  refine ⟨?_, ?_⟩
  · rw [e, List.length_reverse]; exact hh
  · intro row hrow
    rw [e, List.mem_reverse] at hrow
    exact hw row hrow

theorem HorizontalFlip_eq (img : T_img) (hs : img.GridShaped) :
    img.HorizontalFlip = { img with pixelData := img.pixelData.map List.reverse } :=
  congrArg (fun g => ({ img with pixelData := g } : T_img)) (HorizontalFlip_pixelData img hs)

theorem VerticalFlip_eq (img : T_img) (hs : img.GridShaped) :
    img.VerticalFlip = { img with pixelData := img.pixelData.reverse } :=
  congrArg (fun g => ({ img with pixelData := g } : T_img)) (VerticalFlip_pixelData img hs.1)

theorem pixelAt_HorizontalFlip (img : T_img) (hs : img.GridShaped) (r c : Nat)
    (hr : r < img.height) (hc : c < img.width) :
    ∃ p, img.pixelAt r (img.width - 1 - c) = some p ∧ img.HorizontalFlip.pixelAt r c = some p := by
  have e := HorizontalFlip_pixelData img hs
  obtain ⟨hh, hw⟩ := hs
  have hr2 : r < img.pixelData.length := by omega
  have hlen : (img.pixelData[r]).length = img.width := hw _ (List.getElem_mem hr2)
  have hc2 : img.width - 1 - c < (img.pixelData[r]).length := by omega
  refine ⟨(img.pixelData[r])[img.width - 1 - c], ?_, ?_⟩
  · simp only [T_img.pixelAt, List.getElem?_eq_getElem hr2, List.getElem?_eq_getElem hc2]
  · simp only [T_img.pixelAt, e, List.getElem?_map, List.getElem?_eq_getElem hr2, Option.map_some']
    rw [List.getElem?_reverse (by omega), hlen, List.getElem?_eq_getElem hc2]

/-! ## The claims on the flips -/

/-- C2: on an image whose grid has `height` rows of `width` pixels, after
`HorizontalFlip` the pixel at row `r`, column `c` is the pixel, with all its
bytes, that was at row `r`, column `width - 1 - c`, for every `r < height` and
`c < width`; for an odd width the middle column keeps its pixels. -/
theorem HorizontalFlip_reverses_rows (img : T_img) (hs : img.GridShaped) :
    (∀ r c, r < img.height → c < img.width →
      ∃ p, img.pixelAt r (img.width - 1 - c) = some p ∧
        img.HorizontalFlip.pixelAt r c = some p) ∧
    (img.width % 2 = 1 → ∀ r, r < img.height →
      ∃ p, img.pixelAt r (img.width / 2) = some p ∧
        img.HorizontalFlip.pixelAt r (img.width / 2) = some p) := by
  refine ⟨fun r c hr hc => pixelAt_HorizontalFlip img hs r c hr hc, fun hodd r hr => ?_⟩
  have h := pixelAt_HorizontalFlip img hs r (img.width / 2) hr (by omega)
  have e : img.width - 1 - img.width / 2 = img.width / 2 := by omega
  rw [e] at h
  exact h

/-- C2, on a grid of two rows and three columns. -/
theorem HorizontalFlip_reverses_rows_witness :
    sampleImage.GridShaped ∧
    ((∀ r c, r < sampleImage.height → c < sampleImage.width →
      ∃ p, sampleImage.pixelAt r (sampleImage.width - 1 - c) = some p ∧
        sampleImage.HorizontalFlip.pixelAt r c = some p) ∧
    (sampleImage.width % 2 = 1 → ∀ r, r < sampleImage.height →
      ∃ p, sampleImage.pixelAt r (sampleImage.width / 2) = some p ∧
        sampleImage.HorizontalFlip.pixelAt r (sampleImage.width / 2) = some p)) :=
  ⟨by decide, HorizontalFlip_reverses_rows sampleImage (by decide)⟩

/-- C3: on an image whose grid has `height` rows of `width` pixels, after
`VerticalFlip` the row at index `r` is the row, with its pixels in their
order, that was at index `height - 1 - r`, for every `r < height`; for an odd
height the middle row stays in place. -/
theorem VerticalFlip_reverses_rows (img : T_img) (hs : img.GridShaped) :
    (∀ r, r < img.height →
      ∃ row, img.rowAt (img.height - 1 - r) = some row ∧ img.VerticalFlip.rowAt r = some row) ∧
    (img.height % 2 = 1 →
      ∃ row, img.rowAt (img.height / 2) = some row ∧
        img.VerticalFlip.rowAt (img.height / 2) = some row) := by
  have e := VerticalFlip_pixelData img hs.1
  have hh := hs.1
  have key : ∀ r, r < img.height →
      ∃ row, img.rowAt (img.height - 1 - r) = some row ∧ img.VerticalFlip.rowAt r = some row := by
    intro r hr
    have h2 : img.height - 1 - r < img.pixelData.length := by omega
    refine ⟨img.pixelData[img.height - 1 - r], ?_, ?_⟩
    · simp only [T_img.rowAt, List.getElem?_eq_getElem h2]
    · simp only [T_img.rowAt, e]
      rw [List.getElem?_reverse (by omega), hh, List.getElem?_eq_getElem h2]
  refine ⟨key, fun hodd => ?_⟩
  have h := key (img.height / 2) (by omega)
  have e2 : img.height - 1 - img.height / 2 = img.height / 2 := by omega
  rw [e2] at h
  exact h

/-- C3, on a grid of three rows and two columns. -/
theorem VerticalFlip_reverses_rows_witness :
    sampleTall.GridShaped ∧
    ((∀ r, r < sampleTall.height →
      ∃ row, sampleTall.rowAt (sampleTall.height - 1 - r) = some row ∧
        sampleTall.VerticalFlip.rowAt r = some row) ∧
    (sampleTall.height % 2 = 1 →
      ∃ row, sampleTall.rowAt (sampleTall.height / 2) = some row ∧
        sampleTall.VerticalFlip.rowAt (sampleTall.height / 2) = some row)) :=
  ⟨by decide, VerticalFlip_reverses_rows sampleTall (by decide)⟩

/-- C5: on an image whose grid has `height` rows of `width` pixels, two
calls of `HorizontalFlip` give back the image, and so do two calls of
`VerticalFlip`. -/
theorem double_flip_identity (img : T_img) (hs : img.GridShaped) :
    img.HorizontalFlip.HorizontalFlip = img ∧ img.VerticalFlip.VerticalFlip = img := by
  constructor
  · rw [HorizontalFlip_eq _ (HorizontalFlip_GridShaped img hs), HorizontalFlip_eq img hs]
    simp [Function.comp_def]
  · rw [VerticalFlip_eq _ (VerticalFlip_GridShaped img hs), VerticalFlip_eq img hs]
    simp

/-- C5, on a grid of odd width and a grid of odd height. -/
theorem double_flip_identity_witness :
    (sampleImage.GridShaped ∧
      (sampleImage.HorizontalFlip.HorizontalFlip = sampleImage ∧
        sampleImage.VerticalFlip.VerticalFlip = sampleImage)) ∧
    (sampleTall.GridShaped ∧
      (sampleTall.HorizontalFlip.HorizontalFlip = sampleTall ∧
        sampleTall.VerticalFlip.VerticalFlip = sampleTall)) :=
  ⟨⟨by decide, double_flip_identity sampleImage (by decide)⟩,
   ⟨by decide, double_flip_identity sampleTall (by decide)⟩⟩

/-- C6: on an image whose grid has `height` rows of `width` pixels,
`HorizontalFlip` followed by `VerticalFlip` gives the same image as
`VerticalFlip` followed by `HorizontalFlip`. -/
theorem flips_commute (img : T_img) (hs : img.GridShaped) :
    img.HorizontalFlip.VerticalFlip = img.VerticalFlip.HorizontalFlip := by
  rw [VerticalFlip_eq _ (HorizontalFlip_GridShaped img hs), HorizontalFlip_eq img hs,
    HorizontalFlip_eq _ (VerticalFlip_GridShaped img hs), VerticalFlip_eq img hs]
  simp [List.map_reverse]

/-- C6, on a grid of two rows and three columns. -/
theorem flips_commute_witness :
    sampleImage.GridShaped ∧
      sampleImage.HorizontalFlip.VerticalFlip = sampleImage.VerticalFlip.HorizontalFlip :=
  ⟨by decide, flips_commute sampleImage (by decide)⟩

/-! ## Reading a well-formed file -/

theorem declaredField_lt (f : List Byte) (i : Nat) : declaredField f i < 65536 := by
  have h1 := (f.getD i 0).isLt
  have h2 := (f.getD (i + 1) 0).isLt
  unfold declaredField
  split <;> omega

theorem channels_le (h : T_hdr) : h.channels ≤ 4 := by
  rw [channels_eq]; split_ifs <;> omega

theorem bits_shift_le (h : T_hdr) : h.bits >>> 3 ≤ 2 := by
  rw [bits_eq, Nat.shiftRight_eq_div_pow]; split_ifs <;> norm_num

/-- The code accepts the header of a file with a valid header. -/
theorem ValidHeader.checks {f : List Byte} (hv : ValidHeader f) :
    ((declaredHdr f).endian = 0x4949 ∨ (declaredHdr f).endian = 0x4d4d) ∧
    ¬ ((declaredHdr f).width = 0 ∨ (declaredHdr f).height = 0) ∧
    (declaredHdr f).unset_check = true ∧ (declaredHdr f).channels ≠ 0 ∧
    (declaredHdr f).bits ≠ 0 := by
  obtain ⟨_, hm, hw, hh, hr, hc, hd⟩ := hv
  have hlt : (declaredHdr f).format < 65536 := declaredField_lt f 6
  simp only [bitField, formatOf, widthOf, heightOf] at hr hc hd hw hh
  have e6 : (declaredHdr f).format = declaredField f 6 := rfl
  refine ⟨hm, ?_, ?_, ?_, ?_⟩
  · intro h
    rcases h with h | h
    · exact hw h
    · exact hh h
  · rw [unset_check_eq _ hlt, e6]
    simp only [decide_eq_true_eq]
    rw [e6] at hlt
    omega
  · rw [channels_eq, e6]
    norm_num at hc
    split_ifs <;> omega
  · rw [bits_eq, e6]
    norm_num at hd
    split_ifs <;> omega

theorem u32_bytes_per_pixel (h : T_hdr) :
    u32 (h.channels * (h.bits >>> 3)) = h.channels * (h.bits / 8) := by
  have h1 := channels_le h
  have h2 := bits_shift_le h
  have e : h.bits >>> 3 = h.bits / 8 := by rw [Nat.shiftRight_eq_div_pow]
  rw [e] at h2 ⊢
  have : h.channels * (h.bits / 8) ≤ 4 * 2 := Nat.mul_le_mul h1 h2
  unfold u32
  omega

/-- The length check of `T_img::Read` compares the two sides modulo `2^32`. -/
theorem length_check_iff (n w h bpp : Nat) (hn : 8 ≤ n) :
    u32sub (u32 n) 8 = u32 (u32 (w * h) * bpp) ↔
      (n - 8) % 4294967296 = (w * h * bpp) % 4294967296 := by
  have e : u32 (u32 (w * h) * bpp) = (w * h * bpp) % 4294967296 := by
    unfold u32
    rw [Nat.mul_mod (w * h % 4294967296) bpp, Nat.mod_mod, ← Nat.mul_mod]
  rw [e]
  unfold u32sub u32
  omega

/-- The result of the part of `T_img::Read` after the byte-order step when
the checks on the header pass. -/
theorem decodeWith_checked (h : T_hdr) (n : Nat) (rest : List Byte) (hn : 8 ≤ n)
    (hm : h.endian = 0x4949 ∨ h.endian = 0x4d4d) (hz : ¬ (h.width = 0 ∨ h.height = 0))
    (hu : h.unset_check = true) (hc : h.channels ≠ 0) (hb : h.bits ≠ 0) :
    decodeWith h n rest =
      if (n - 8) % 4294967296 ≠ (h.width * h.height * (h.channels * (h.bits / 8))) % 4294967296
      then none
      else
        match readGrid h.height h.width (h.channels * (h.bits / 8)) rest with
        | none => none
        | some (g, _) => some ⟨h, h.width, h.height, h.channels * (h.bits / 8), g⟩ := by
  unfold decodeWith
  rw [if_neg (not_not.mpr hm), if_neg hz, if_neg (by simp [hu]), if_neg hc, if_neg hb]
  have e := length_check_iff n h.width h.height (h.channels * (h.bits / 8)) hn
  simp only [u32_bytes_per_pixel, ne_eq, e]

/-- On a well-formed file `T_img::Read` returns the image with the header that
the file declares and the grid whose bytes, row by row, are the payload. -/
theorem Read_wellFormed {f : List Byte} (hf : WellFormed f) :
    ∃ g, T_img.Read (some f) =
        some ⟨declaredHdr f, widthOf f, heightOf f, bytesPerPixelOf f, g⟩ ∧
      g.length = heightOf f ∧
      (∀ row ∈ g, row.length = widthOf f ∧ ∀ p ∈ row, p.length = bytesPerPixelOf f) ∧
      payloadOf g = f.drop 8 := by
  obtain ⟨hv, hlen⟩ := hf
  obtain ⟨hm, hz, hu, hc, hb⟩ := hv.checks
  have hrest : heightOf f * (widthOf f * bytesPerPixelOf f) = (f.drop 8).length := by
    rw [List.length_drop, hlen, Nat.add_sub_cancel_left]; ring
  obtain ⟨g, g1, g2, g3, g4⟩ := readGrid_some (widthOf f) (bytesPerPixelOf f) (heightOf f)
    (f.drop 8) (by omega)
  refine ⟨g, ?_, g2, g3, ?_⟩
  · rw [Read_of_length hv.1, decodeWith_checked _ _ _ hv.1 hm hz hu hc hb]
    have e : (f.length - 8) % 4294967296 =
        ((declaredHdr f).width * (declaredHdr f).height *
          ((declaredHdr f).channels * ((declaredHdr f).bits / 8))) % 4294967296 := by
      rw [hlen, Nat.add_sub_cancel_left]; rfl
    rw [if_neg (not_not.mpr e)]
    have g1b : readGrid (declaredHdr f).height (declaredHdr f).width
        ((declaredHdr f).channels * ((declaredHdr f).bits / 8)) (f.drop 8) = _ := g1
    rw [g1b]
    rfl
  · rw [payloadOf, g4, hrest, List.take_length]

/-! ## Writing a shaped image -/

theorem ostream_write_ok (s : ofstream) (buf : List Byte) (hg : s.good = true)
    (hr : buf.length ≤ s.room) :
    ostream_write s buf = ⟨s.opened, true, s.data ++ buf, s.room - buf.length⟩ := by
  simp [ostream_write, hg, hr]

theorem ostream_write_good (s : ofstream) (buf : List Byte)
    (h : (ostream_write s buf).good = true) : s.good = true ∧ buf.length ≤ s.room := by
  by_cases h1 : s.good = false
  · rw [ostream_write, if_pos h1] at h
    exact absurd h (by simp [h1])
  · by_cases h2 : buf.length ≤ s.room
    · exact ⟨by simpa using h1, h2⟩
    · rw [ostream_write, if_neg h1, if_neg h2] at h
      exact absurd h (by simp)

/-- A loop of writes that stops at the first failure, on a good stream with
room for all the bytes: all are appended. -/
theorem writeLoop_ok (g : Nat → ofstream → ofstream) (F : Nat → List Byte)
    (hok : ∀ i s, s.good = true → (F i).length ≤ s.room →
      g i s = ⟨s.opened, true, s.data ++ F i, s.room - (F i).length⟩) (n : Nat) :
    ∀ s : ofstream, s.good = true → ((List.range n).map F).flatten.length ≤ s.room →
      (List.range n).foldl (fun s i => if s.good then g i s else s) s =
        ⟨s.opened, true, s.data ++ ((List.range n).map F).flatten,
          s.room - ((List.range n).map F).flatten.length⟩ := by
  induction n with
  | zero =>
    intro s hg _
    cases s
    simp only at hg
    simp [hg]
  | succ n ih =>
    intro s hg hr
    rw [List.range_succ, List.map_append, List.flatten_append, List.length_append] at hr
    simp only [List.map_cons, List.map_nil, List.flatten_cons, List.flatten_nil,
      List.append_nil] at hr
    rw [List.range_succ, List.foldl_append, ih s hg (by omega)]
    simp only [List.foldl_cons, List.foldl_nil, if_true]
    rw [hok n _ rfl (by simp only; omega)]
    simp only [List.map_append, List.flatten_append, List.map_cons, List.map_nil,
      List.flatten_cons, List.flatten_nil, List.append_nil, List.append_assoc,
      List.length_append, ofstream.mk.injEq, true_and]
    omega

/-- A loop of writes that stops at the first failure ends on a good stream
only when it started on a good stream with room for all the bytes. -/
theorem writeLoop_good (g : Nat → ofstream → ofstream) (F : Nat → List Byte)
    (hok : ∀ i s, s.good = true → (F i).length ≤ s.room →
      g i s = ⟨s.opened, true, s.data ++ F i, s.room - (F i).length⟩)
    (hgood : ∀ i s, (g i s).good = true → s.good = true ∧ (F i).length ≤ s.room) (n : Nat) :
    ∀ s : ofstream,
      ((List.range n).foldl (fun s i => if s.good then g i s else s) s).good = true →
      s.good = true ∧ ((List.range n).map F).flatten.length ≤ s.room := by
  induction n with
  | zero => intro s h; exact ⟨by simpa using h, by simp⟩
  | succ n ih =>
    intro s h
    rw [List.range_succ, List.foldl_append] at h
    simp only [List.foldl_cons, List.foldl_nil] at h
    by_cases hn : ((List.range n).foldl (fun s i => if s.good then g i s else s) s).good = true
    · obtain ⟨hg, hr⟩ := ih s hn
      rw [if_pos hn] at h
      have h2 := (hgood n _ h).2
      rw [writeLoop_ok g F hok n s hg hr] at h2
      simp only at h2
      refine ⟨hg, ?_⟩
      rw [List.range_succ, List.map_append, List.flatten_append, List.length_append]
      simp only [List.map_cons, List.map_nil, List.flatten_cons, List.flatten_nil,
        List.append_nil]
      omega
    · rw [if_neg hn] at h
      exact absurd h hn

theorem map_range_getD {α β : Type} (l : List α) (d : α) (f : α → β) (n : Nat)
    (hn : l.length = n) :
    (List.range n).map (fun j => f (l.getD j d)) = l.map f := by
  apply List.ext_getElem?
  intro c
  rw [List.getElem?_map, List.getElem?_map]
  by_cases h : c < n
  · have hc : c < l.length := by omega
    rw [List.getElem?_range h, List.getElem?_eq_getElem hc]
    simp [List.getD_eq_getElem?_getD, List.getElem?_eq_getElem hc]
  · rw [List.getElem?_eq_none (by simp; omega), List.getElem?_eq_none (by omega)]
    rfl

theorem writeRow_ok (img : T_img) (i : Nat) (s : ofstream) (hg : s.good = true)
    (hr : (rowBytes img i).length ≤ s.room) :
    writeRow img i s =
      ⟨s.opened, true, s.data ++ rowBytes img i, s.room - (rowBytes img i).length⟩ :=
  writeLoop_ok
    (fun j s => ostream_write s
      (((img.pixelData.getD i []).getD j []).take img.bytes_per_pixel))
    _ (fun _ s hg hr => ostream_write_ok s _ hg hr) img.width s hg hr

theorem writeRow_good (img : T_img) (i : Nat) (s : ofstream)
    (h : (writeRow img i s).good = true) :
    s.good = true ∧ (rowBytes img i).length ≤ s.room :=
  writeLoop_good
    (fun j s => ostream_write s
      (((img.pixelData.getD i []).getD j []).take img.bytes_per_pixel))
    _ (fun _ s hg hr => ostream_write_ok s _ hg hr)
    (fun _ s h => ostream_write_good s _ h) img.width s h

/-- The bytes that the two loops of `T_img::Write` go through are the bytes of
the grid, row by row. -/
theorem rowBytes_shaped (img : T_img) (hs : img.Shaped) :
    ((List.range img.height).map (rowBytes img)).flatten = payloadOf img.pixelData := by
  obtain ⟨hh, hrows⟩ := hs
  unfold payloadOf rowBytes
  rw [List.flatten_flatten]
  congr 1
  rw [map_range_getD img.pixelData []
    (fun row => ((List.range img.width).map (fun j =>
        (row.getD j []).take img.bytes_per_pixel)).flatten) img.height hh]
  apply List.map_congr_left
  intro row hrow
  obtain ⟨hw, hp⟩ := hrows row hrow
  rw [map_range_getD row [] (fun p => p.take img.bytes_per_pixel) img.width hw]
  congr 1
  conv_rhs => rw [← List.map_id row]
  apply List.map_congr_left
  intro p hpm
  rw [id, List.take_of_length_le (by rw [hp p hpm])]

/-- The two loops of `T_img::Write` on a good stream with room for the grid
append the bytes of the grid, row by row. -/
theorem writeGrid_shaped (img : T_img) (hs : img.Shaped) (s : ofstream) (hg : s.good = true)
    (hr : (payloadOf img.pixelData).length ≤ s.room) :
    writeGrid img s =
      ⟨s.opened, true, s.data ++ payloadOf img.pixelData,
        s.room - (payloadOf img.pixelData).length⟩ := by
  rw [← rowBytes_shaped img hs] at hr ⊢
  exact writeLoop_ok (fun i s => writeRow img i s) (rowBytes img)
    (fun i s hg hr => writeRow_ok img i s hg hr) img.height s hg hr

/-- The two loops of `T_img::Write` end on a good stream only when they
started on a good stream with room for the grid. -/
theorem writeGrid_good (img : T_img) (hs : img.Shaped) (s : ofstream)
    (h : (writeGrid img s).good = true) :
    s.good = true ∧ (payloadOf img.pixelData).length ≤ s.room := by
  rw [← rowBytes_shaped img hs]
  exact writeLoop_good (fun i s => writeRow img i s) (rowBytes img)
    (fun i s hg hr => writeRow_ok img i s hg hr)
    (fun i s h => writeRow_good img i s h) img.height s h

theorem swap16_declared (f : List Byte) (i : Nat) (hm : markerOf f = 0x4d4d) :
    swap16 (declaredField f i) = word (f.getD i 0) (f.getD (i + 1) 0) := by
  have e : declaredField f i = word (f.getD (i + 1) 0) (f.getD i 0) := by
    simp only [declaredField, hm, if_true, word]; omega
  rw [e, swap16_word]

theorem declared_little (f : List Byte) (i : Nat) (hm : markerOf f ≠ 0x4d4d) :
    declaredField f i = word (f.getD i 0) (f.getD (i + 1) 0) := by
  simp only [declaredField, hm, if_false, word]

/-- The header bytes that `T_img::Write` emits for the header that a file
declares are the first eight bytes of the file. -/
theorem hdrBytes_declared (f : List Byte) (h8 : 8 ≤ f.length) :
    hdrBytes (if (declaredHdr f).endian = ENDIAN_BIG then
        { declaredHdr f with width := swap16 (declaredHdr f).width,
                             height := swap16 (declaredHdr f).height,
                             format := swap16 (declaredHdr f).format }
      else declaredHdr f) = f.take 8 := by
  obtain ⟨b0, b1, b2, b3, b4, b5, b6, b7, rest, rfl⟩ := exists_header_of_length h8
  by_cases hm : markerOf (b0 :: b1 :: b2 :: b3 :: b4 :: b5 :: b6 :: b7 :: rest) = 0x4d4d
  · have hm2 : (declaredHdr (b0 :: b1 :: b2 :: b3 :: b4 :: b5 :: b6 :: b7 :: rest)).endian
        = ENDIAN_BIG := hm
    rw [if_pos hm2]
    simp only [declaredHdr, swap16_declared _ _ hm, hdrBytes]
    simp [markerOf, byteOf_word_lo, byteOf_word_hi]
  · have hm2 : ¬ (declaredHdr (b0 :: b1 :: b2 :: b3 :: b4 :: b5 :: b6 :: b7 :: rest)).endian
        = ENDIAN_BIG := hm
    rw [if_neg hm2]
    simp only [declaredHdr, declared_little _ _ hm, hdrBytes]
    simp [markerOf, byteOf_word_lo, byteOf_word_hi]

theorem hdrBytes_length (h : T_hdr) : (hdrBytes h).length = 8 := rfl

/-- Method `T_img::Write` in terms of the header that it writes. -/
theorem Write_def (img : T_img) (granted : Option Nat) :
    img.Write granted =
      if (ostream_write (ofstream_open granted) (hdrBytes (writtenHdr img.hdr))).good = false
      then (false, { img with hdr := writtenHdr img.hdr },
        ostream_write (ofstream_open granted) (hdrBytes (writtenHdr img.hdr)))
      else if (writeGrid { img with hdr := writtenHdr img.hdr }
          (ostream_write (ofstream_open granted) (hdrBytes (writtenHdr img.hdr)))).good = false
      then (false, { img with hdr := writtenHdr img.hdr },
        writeGrid { img with hdr := writtenHdr img.hdr }
          (ostream_write (ofstream_open granted) (hdrBytes (writtenHdr img.hdr))))
      else (true, { img with hdr := writtenHdr img.hdr },
        writeGrid { img with hdr := writtenHdr img.hdr }
          (ostream_write (ofstream_open granted) (hdrBytes (writtenHdr img.hdr)))) :=
  rfl

/-- Method `T_img::Write` on an image with all its pixels in place, when the
file can be opened and the host accepts the header and the grid. -/
theorem Write_shaped (img : T_img) (hs : img.Shaped) (n : Nat)
    (hn : 8 + (payloadOf img.pixelData).length ≤ n) :
    (img.Write (some n)).1 = true ∧ (img.Write (some n)).2.2.opened = true ∧
    (img.Write (some n)).2.2.data =
      hdrBytes (writtenHdr img.hdr) ++ payloadOf img.pixelData := by
  have hs2 : T_img.Shaped { img with hdr := writtenHdr img.hdr } := hs
  have e1 : ostream_write (ofstream_open (some n)) (hdrBytes (writtenHdr img.hdr)) =
      ⟨true, true, hdrBytes (writtenHdr img.hdr), n - 8⟩ := by
    rw [ostream_write_ok _ _ rfl (by rw [hdrBytes_length]; simp only [ofstream_open]; omega)]
    simp [ofstream_open, hdrBytes_length]
  have e2 := writeGrid_shaped _ hs2 ⟨true, true, hdrBytes (writtenHdr img.hdr), n - 8⟩ rfl
    (by show (payloadOf img.pixelData).length ≤ n - 8; omega)
  rw [Write_def, e1, e2]
  simp

/-- Method `T_img::Write` returns `true` only when the file could be opened
and the host accepts the header and the grid. -/
theorem Write_true (img : T_img) (hs : img.Shaped) (granted : Option Nat)
    (h : (img.Write granted).1 = true) :
    ∃ n, granted = some n ∧ 8 + (payloadOf img.pixelData).length ≤ n := by
  have hs2 : T_img.Shaped { img with hdr := writtenHdr img.hdr } := hs
  rw [Write_def] at h
  by_cases h1 : (ostream_write (ofstream_open granted) (hdrBytes (writtenHdr img.hdr))).good
      = false
  · rw [if_pos h1] at h
    exact absurd h (by simp)
  · by_cases h2 : (writeGrid { img with hdr := writtenHdr img.hdr }
        (ostream_write (ofstream_open granted) (hdrBytes (writtenHdr img.hdr)))).good = false
    · rw [if_neg h1, if_pos h2] at h
      exact absurd h (by simp)
    · have k2 := writeGrid_good _ hs2 _ (by simpa using h2)
      have k1 := ostream_write_good _ _ k2.1
      cases granted with
      | none => exact absurd k1.1 (by simp [ofstream_open])
      | some n =>
        refine ⟨n, rfl, ?_⟩
        have k3 := k2.2
        have k4 := k1.2
        rw [ostream_write_ok _ _ k1.1 k1.2] at k3
        rw [hdrBytes_length] at k3 k4
        have k5 : (payloadOf img.pixelData).length ≤ n - 8 := k3
        have k6 : 8 ≤ n := k4
        omega

/-! ## Round trip and `flipImage` -/

theorem T_img.Shaped.gridShaped {img : T_img} (hs : img.Shaped) : img.GridShaped :=
  ⟨hs.1, fun row hrow => (hs.2 row hrow).1⟩

theorem HorizontalFlip_Shaped (img : T_img) (hs : img.Shaped) : img.HorizontalFlip.Shaped := by
  have e := HorizontalFlip_pixelData img hs.gridShaped
  obtain ⟨hh, hw⟩ := hs
  refine ⟨?_, ?_⟩
  · rw [e, List.length_map]; exact hh
  · intro row hrow
    rw [e, List.mem_map] at hrow
    obtain ⟨r0, hr0, rfl⟩ := hrow
    refine ⟨by rw [List.length_reverse]; exact (hw r0 hr0).1, fun p hp => ?_⟩
    exact (hw r0 hr0).2 p (List.mem_reverse.mp hp)

theorem VerticalFlip_Shaped (img : T_img) (hs : img.Shaped) : img.VerticalFlip.Shaped := by
  have e := VerticalFlip_pixelData img hs.1
  obtain ⟨hh, hw⟩ := hs
  refine ⟨?_, ?_⟩
  · rw [e, List.length_reverse]; exact hh
  · intro row hrow
    rw [e, List.mem_reverse] at hrow
    exact hw row hrow

/-- On a well-formed file `T_img::Read` gives an image with all its pixels in
place and the header that the file declares. -/
theorem Read_wellFormed_shaped {f : List Byte} (hf : WellFormed f) :
    ∃ img, T_img.Read (some f) = some img ∧ img.Shaped ∧ img.hdr = declaredHdr f ∧
      img.width = widthOf f ∧ img.height = heightOf f ∧
      img.bytes_per_pixel = bytesPerPixelOf f ∧ payloadOf img.pixelData = f.drop 8 := by
  obtain ⟨g, h1, h2, h3, h4⟩ := Read_wellFormed hf
  exact ⟨_, h1, ⟨h2, h3⟩, rfl, rfl, rfl, rfl, h4⟩

theorem length_flatten_uniform {α : Type} (n : Nat) : ∀ (L : List (List α)),
    (∀ l ∈ L, l.length = n) → L.flatten.length = L.length * n := by
  intro L
  induction L with
  | nil => intro _; simp
  | cons l L ih =>
    intro hL
    rw [List.flatten_cons, List.length_append, hL l (List.mem_cons_self _ _),
      ih (fun l2 h2 => hL l2 (List.mem_cons_of_mem _ h2)), List.length_cons]
    ring

/-- The number of bytes of a grid with all its pixels in place. -/
theorem payloadOf_length (img : T_img) (hs : img.Shaped) :
    (payloadOf img.pixelData).length = img.width * img.height * img.bytes_per_pixel := by
  have hpix : ∀ p ∈ img.pixelData.flatten, p.length = img.bytes_per_pixel := by
    intro p hp
    obtain ⟨row, hrow, hprow⟩ := List.mem_flatten.mp hp
    exact (hs.2 row hrow).2 p hprow
  rw [payloadOf, length_flatten_uniform _ _ hpix,
    length_flatten_uniform img.width _ (fun row hrow => (hs.2 row hrow).1), hs.1]
  ring

/-- The bytes that `T_img::Write` emits for an image with all its pixels in
place, whose header is the one a file declares, when the file can be opened
and the host accepts the header and the grid: the eight header bytes of the
file, then the grid. -/
theorem Write_of_declared {f : List Byte} (h8 : 8 ≤ f.length) (img : T_img) (hs : img.Shaped)
    (hh : img.hdr = declaredHdr f) (n : Nat) (hn : 8 + (payloadOf img.pixelData).length ≤ n) :
    (img.Write (some n)).1 = true ∧ (img.Write (some n)).2.2.opened = true ∧
    (img.Write (some n)).2.2.data = f.take 8 ++ payloadOf img.pixelData := by
  obtain ⟨w1, w2, w3⟩ := Write_shaped img hs n hn
  refine ⟨w1, w2, ?_⟩
  rw [w3, hh]
  exact congrArg (fun l => l ++ payloadOf img.pixelData) (hdrBytes_declared f h8)

/-- Reading a well-formed file and writing the image back, to a file that can
be opened and for which the host accepts as many bytes, gives the file. -/
theorem Write_Read_wellFormed {f : List Byte} (hf : WellFormed f) :
    ∃ img, T_img.Read (some f) = some img ∧
      ∀ n, f.length ≤ n →
        (img.Write (some n)).1 = true ∧ (img.Write (some n)).2.2.opened = true ∧
        (img.Write (some n)).2.2.data = f := by
  obtain ⟨img, h1, hs, hh, -, -, -, hp⟩ := Read_wellFormed_shaped hf
  refine ⟨img, h1, fun n hn => ?_⟩
  have hlen : 8 + (payloadOf img.pixelData).length ≤ n := by
    rw [hp, List.length_drop]
    have := hf.1.1
    omega
  obtain ⟨w1, w2, w3⟩ := Write_of_declared hf.1.1 img hs hh n hlen
  exact ⟨w1, w2, by rw [w3, hp, List.take_append_drop]⟩

/-- With no flip asked for, `flipImage` copies a well-formed source byte for
byte to a destination that can be opened and for which the host accepts as
many bytes. -/
theorem flipImage_no_flip_copies (fs : FileSystem) (access : WriteAccess)
    (srcFileName dstFileName : String)
    (f : List Byte) (hsrc : fs srcFileName = some f) (hf : WellFormed f)
    (n : Nat) (hdst : access dstFileName = some n) (hroom : f.length ≤ n) :
    (flipImage fs access srcFileName dstFileName false false).1 = true ∧
    (flipImage fs access srcFileName dstFileName false false).2 dstFileName = some f := by
  obtain ⟨img, h1, hw⟩ := Write_Read_wellFormed hf
  obtain ⟨w1, w2, w3⟩ := hw n hroom
  simp [flipImage, hsrc, h1, hdst, w1, w2, w3, FileSystem.store, FileSystem.close]

/-- The image that `flipImage` writes: the image that `T_img::Read` returns,
after the flips that were asked for. -/
theorem flipped_Shaped (img : T_img) (hs : img.Shaped) (flipHorizontal flipVertical : Bool) :
    (if flipVertical then
      (if flipHorizontal then img.HorizontalFlip else img).VerticalFlip
      else (if flipHorizontal then img.HorizontalFlip else img)).Shaped := by
  have hsH : (if flipHorizontal then img.HorizontalFlip else img).Shaped := by
    cases flipHorizontal
    · exact hs
    · exact HorizontalFlip_Shaped img hs
  cases flipVertical
  · exact hsH
  · exact VerticalFlip_Shaped _ hsH

/-- On a well-formed source `flipImage` returns `true` only when the
destination can be opened for writing and the host accepts as many bytes as
the source has. -/
theorem flipImage_true_access (fs : FileSystem) (access : WriteAccess)
    (srcFileName dstFileName : String) (flipHorizontal flipVertical : Bool) (f : List Byte)
    (hsrc : fs srcFileName = some f) (hf : WellFormed f)
    (h : (flipImage fs access srcFileName dstFileName flipHorizontal flipVertical).1 = true) :
    ∃ n, access dstFileName = some n ∧ f.length ≤ n := by
  obtain ⟨img, h1, hs, -, hw, hht, hb, -⟩ := Read_wellFormed_shaped hf
  have hsV := flipped_Shaped img hs flipHorizontal flipVertical
  simp only [flipImage, hsrc, h1] at h
  by_cases hw1 : ((if flipVertical then
      (if flipHorizontal then img.HorizontalFlip else img).VerticalFlip
      else (if flipHorizontal then img.HorizontalFlip else img)).Write
        (access dstFileName)).1 = false
  · rw [if_pos hw1] at h
    exact absurd h (by simp)
  · obtain ⟨n, e, hn⟩ := Write_true _ hsV (access dstFileName) (by simpa using hw1)
    refine ⟨n, e, ?_⟩
    rw [payloadOf_length _ hsV] at hn
    have e2 : (if flipVertical then
          (if flipHorizontal then img.HorizontalFlip else img).VerticalFlip
          else (if flipHorizontal then img.HorizontalFlip else img)).width *
        (if flipVertical then
          (if flipHorizontal then img.HorizontalFlip else img).VerticalFlip
          else (if flipHorizontal then img.HorizontalFlip else img)).height *
        (if flipVertical then
          (if flipHorizontal then img.HorizontalFlip else img).VerticalFlip
          else (if flipHorizontal then img.HorizontalFlip else img)).bytes_per_pixel =
        widthOf f * heightOf f * bytesPerPixelOf f := by
      rw [← hw, ← hht, ← hb]
      cases flipVertical <;> cases flipHorizontal <;> rfl
    rw [e2, ← hf.2] at hn
    exact hn

/-- C4, with the condition on the destination that the code needs: for a
well-formed source file, any two flags and a destination that can be opened
for writing and for which the host accepts as many bytes as the source has,
`flipImage` returns `true`, leaves the other files alone, and the destination
holds the eight header bytes of the source followed by the row-major bytes of
the grid that `HorizontalFlip` (if asked for) and then `VerticalFlip` (if
asked for) make of the grid that `Read` decodes. -/
theorem flipImage_wellFormed (fs : FileSystem) (access : WriteAccess)
    (srcFileName dstFileName : String)
    (flipHorizontal flipVertical : Bool) (f : List Byte)
    (hsrc : fs srcFileName = some f) (hf : WellFormed f)
    (n : Nat) (hdst : access dstFileName = some n) (hroom : f.length ≤ n) :
    ∃ img, T_img.Read (some f) = some img ∧
      (flipImage fs access srcFileName dstFileName flipHorizontal flipVertical).1 = true ∧
      (flipImage fs access srcFileName dstFileName flipHorizontal flipVertical).2 dstFileName =
        some (f.take 8 ++ payloadOf
          ((if flipVertical then T_img.VerticalFlip else id)
            ((if flipHorizontal then T_img.HorizontalFlip else id) img)).pixelData) ∧
      ∀ name, name ≠ dstFileName →
        (flipImage fs access srcFileName dstFileName flipHorizontal flipVertical).2 name =
          fs name := by
  obtain ⟨img, h1, hs, hh, hw, hht, hb, -⟩ := Read_wellFormed_shaped hf
  have hsV := flipped_Shaped img hs flipHorizontal flipVertical
  have hhV : (if flipVertical then
      (if flipHorizontal then img.HorizontalFlip else img).VerticalFlip
      else (if flipHorizontal then img.HorizontalFlip else img)).hdr = declaredHdr f := by
    cases flipVertical <;> cases flipHorizontal <;> exact hh
  have hlen : 8 + (payloadOf (if flipVertical then
      (if flipHorizontal then img.HorizontalFlip else img).VerticalFlip
      else (if flipHorizontal then img.HorizontalFlip else img)).pixelData).length ≤ n := by
    rw [payloadOf_length _ hsV]
    have e : (if flipVertical then
          (if flipHorizontal then img.HorizontalFlip else img).VerticalFlip
          else (if flipHorizontal then img.HorizontalFlip else img)).width *
        (if flipVertical then
          (if flipHorizontal then img.HorizontalFlip else img).VerticalFlip
          else (if flipHorizontal then img.HorizontalFlip else img)).height *
        (if flipVertical then
          (if flipHorizontal then img.HorizontalFlip else img).VerticalFlip
          else (if flipHorizontal then img.HorizontalFlip else img)).bytes_per_pixel =
        widthOf f * heightOf f * bytesPerPixelOf f := by
      rw [← hw, ← hht, ← hb]
      cases flipVertical <;> cases flipHorizontal <;> rfl
    rw [e, ← hf.2]
    exact hroom
  obtain ⟨w1, w2, w3⟩ := Write_of_declared hf.1.1 _ hsV hhV n hlen
  have hfl : flipImage fs access srcFileName dstFileName flipHorizontal flipVertical =
      (true, fs.store dstFileName (f.take 8 ++ payloadOf
          ((if flipVertical then T_img.VerticalFlip else id)
            ((if flipHorizontal then T_img.HorizontalFlip else id) img)).pixelData)) := by
    simp only [flipImage, hsrc, h1, hdst, w1, FileSystem.close, w2, w3]
    cases flipVertical <;> cases flipHorizontal <;> simp
  refine ⟨img, h1, ?_, ?_, ?_⟩
  · rw [hfl]
  · rw [hfl]; simp [FileSystem.store]
  · intro name hname
    rw [hfl]; simp [FileSystem.store, hname]

/-- C4, on the 2x2 image with payload 00 01 02 03 and a destination for which
the host accepts 4096 bytes: the three flipped payloads are 01 00 03 02,
02 03 00 01 and 03 02 01 00. -/
theorem flipImage_wellFormed_witness :
    (sampleFs "in.img" = some sampleFile ∧ WellFormed sampleFile ∧
      sampleAccess "out.img" = some 4096 ∧ sampleFile.length ≤ 4096) ∧
    (∃ img, T_img.Read (some sampleFile) = some img ∧
      (flipImage sampleFs sampleAccess "in.img" "out.img" true false).1 = true ∧
      (flipImage sampleFs sampleAccess "in.img" "out.img" true false).2 "out.img" =
        some (sampleFile.take 8 ++ payloadOf
          ((if false then T_img.VerticalFlip else id)
            ((if true then T_img.HorizontalFlip else id) img)).pixelData) ∧
      ∀ name, name ≠ "out.img" →
        (flipImage sampleFs sampleAccess "in.img" "out.img" true false).2 name =
          sampleFs name) ∧
    (flipImage sampleFs sampleAccess "in.img" "out.img" true false).2 "out.img" =
      some [0x49, 0x49, 2, 0, 2, 0, 0x0c, 0, 1, 0, 3, 2] ∧
    (flipImage sampleFs sampleAccess "in.img" "out.img" false true).2 "out.img" =
      some [0x49, 0x49, 2, 0, 2, 0, 0x0c, 0, 2, 3, 0, 1] ∧
    (flipImage sampleFs sampleAccess "in.img" "out.img" true true).2 "out.img" =
      some [0x49, 0x49, 2, 0, 2, 0, 0x0c, 0, 3, 2, 1, 0] :=
  ⟨⟨by decide, by decide, by decide, by decide⟩,
   flipImage_wellFormed sampleFs sampleAccess "in.img" "out.img" true false sampleFile
     (by decide) (by decide) 4096 (by decide) (by decide),
   by decide, by decide, by decide⟩

/-- C4, the counterexample: the source is the well-formed 2x2 file; when the
destination cannot be opened for writing `flipImage` returns `false` and no
file is made, and when the host accepts only 11 of the 12 bytes `flipImage`
returns `false` as well. -/
theorem flipImage_unwritable_destination :
    sampleFs "in.img" = some sampleFile ∧ WellFormed sampleFile ∧
    (flipImage sampleFs noAccess "in.img" "out.img" true false).1 = false ∧
    (flipImage sampleFs noAccess "in.img" "out.img" true false).2 "out.img" = none ∧
    (flipImage sampleFs (fun _ => some 11) "in.img" "out.img" true false).1 = false := by
  decide

/-! ## Header validation and the decoded grid -/

/-- The checks of the code on the header pass only for a valid header. -/
theorem ValidHeader.of_checks {f : List Byte} (h8 : 8 ≤ f.length)
    (hm : (declaredHdr f).endian = 0x4949 ∨ (declaredHdr f).endian = 0x4d4d)
    (hz : ¬ ((declaredHdr f).width = 0 ∨ (declaredHdr f).height = 0))
    (hu : ¬ (declaredHdr f).unset_check = false) (hc : ¬ (declaredHdr f).channels = 0)
    (hb : ¬ (declaredHdr f).bits = 0) : ValidHeader f := by
  have hlt : (declaredHdr f).format < 65536 := declaredField_lt f 6
  have e6 : (declaredHdr f).format = declaredField f 6 := rfl
  rw [unset_check_eq _ hlt] at hu
  rw [channels_eq] at hc
  rw [bits_eq] at hb
  rw [e6] at hu hc hb hlt
  simp only [decide_eq_false_iff_not, not_not] at hu
  refine ⟨h8, hm, fun h => hz (Or.inl h), fun h => hz (Or.inr h), ?_, ?_, ?_⟩
  · simp only [bitField, formatOf]; omega
  · simp only [bitField, formatOf]
    norm_num
    intro h1
    rw [if_neg (by omega), if_neg (by omega), if_neg (by omega)] at hc
    exact hc rfl
  · simp only [bitField, formatOf]
    norm_num
    by_contra hcon
    rw [if_neg (by omega), if_neg (by omega), if_neg (by omega)] at hb
    exact hb rfl

/-- A file that `T_img::Read` accepts has a valid header. -/
theorem ValidHeader.of_Read {f : List Byte} {img : T_img} (h : T_img.Read (some f) = some img) :
    ValidHeader f := by
  by_cases h8 : 8 ≤ f.length
  · rw [Read_of_length h8] at h
    unfold decodeWith at h
    split_ifs at h with hm hz hu hc hb
    exact ValidHeader.of_checks h8 hm hz hu hc hb
  · rw [Read_short (by omega)] at h
    exact absurd h (by simp)

/-- C7: `T_img::Read` returns `false`, whatever the payload, for a file that
has fewer than eight bytes, or whose marker is neither 0x4949 nor 0x4d4d, or
whose width or height in the declared byte order is zero, or whose format
word has one of the bits 5 to 15 set, or has the channel code 01, or has a
code of the bit depth other than 000, 011 and 100. -/
theorem Read_rejects_invalid_header (f : List Byte)
    (h : f.length < 8 ∨ (markerOf f ≠ 0x4949 ∧ markerOf f ≠ 0x4d4d) ∨
      widthOf f = 0 ∨ heightOf f = 0 ∨
      bitField (formatOf f) 5 11 ≠ 0 ∨ bitField (formatOf f) 0 2 = 1 ∨
      (bitField (formatOf f) 2 3 ≠ 0 ∧ bitField (formatOf f) 2 3 ≠ 3 ∧
        bitField (formatOf f) 2 3 ≠ 4)) :
    T_img.Read (some f) = none := by
  cases hr : T_img.Read (some f) with
  | none => rfl
  | some img =>
    exfalso
    obtain ⟨h8, hm, hw, hh, hres, hc, hd⟩ := ValidHeader.of_Read hr
    rcases h with h | h | h | h | h | h | h
    · omega
    · rcases hm with hm | hm
      · exact h.1 hm
      · exact h.2 hm
    · exact hw h
    · exact hh h
    · exact h hres
    · exact hc h
    · rcases hd with hd | hd | hd
      · exact h.1 hd
      · exact h.2.1 hd
      · exact h.2.2 hd

/-- C7, on a file whose header declares the width zero. -/
theorem Read_rejects_invalid_header_witness :
    (zeroWidthFile.length < 8 ∨
      (markerOf zeroWidthFile ≠ 0x4949 ∧ markerOf zeroWidthFile ≠ 0x4d4d) ∨
      widthOf zeroWidthFile = 0 ∨ heightOf zeroWidthFile = 0 ∨
      bitField (formatOf zeroWidthFile) 5 11 ≠ 0 ∨ bitField (formatOf zeroWidthFile) 0 2 = 1 ∨
      (bitField (formatOf zeroWidthFile) 2 3 ≠ 0 ∧ bitField (formatOf zeroWidthFile) 2 3 ≠ 3 ∧
        bitField (formatOf zeroWidthFile) 2 3 ≠ 4)) ∧
    T_img.Read (some zeroWidthFile) = none :=
  ⟨by decide, Read_rejects_invalid_header zeroWidthFile (by decide)⟩

/-- The byte `k` of the pixel at row `i`, column `j` of a grid with rows of
`w` pixels of `bpp` bytes, in the row-major bytes of the grid. -/
theorem getElem?_payloadOf (g : List (List Pixel)) (w bpp : Nat)
    (hg : ∀ row ∈ g, row.length = w ∧ ∀ p ∈ row, p.length = bpp)
    (i j k : Nat) (hj : j < w) (hk : k < bpp) :
    (payloadOf g)[(i * w + j) * bpp + k]? =
      ((g[i]?).bind (fun row => row[j]?)).bind (fun p => p[k]?) := by
  unfold payloadOf
  rw [getElem?_flatten_uniform bpp g.flatten ?_ (i * w + j) k hk,
    getElem?_flatten_uniform w g (fun row hrow => (hg row hrow).1) i j hj]
  intro p hp
  obtain ⟨row, hrow, hprow⟩ := List.mem_flatten.mp hp
  exact (hg row hrow).2 p hprow

/-- C9: for a file with a valid header, a bit depth of 8 or 16 and a payload
of exactly `width * height * bytesPerPixel` bytes, `T_img::Read` succeeds;
the image has the declared width and height and
`bytes_per_pixel = channels * (bits / 8)`, which is not zero; and the byte `k`
of the pixel at row `i`, column `j` is the byte of the file at offset
`8 + (i * width + j) * bytes_per_pixel + k`. -/
theorem Read_decodes_payload (f : List Byte) (hf : WellFormed f)
    (hd : (declaredHdr f).bits = 8 ∨ (declaredHdr f).bits = 16) :
    ∃ img, T_img.Read (some f) = some img ∧
      img.width = widthOf f ∧ img.height = heightOf f ∧
      img.bytes_per_pixel = (declaredHdr f).channels * ((declaredHdr f).bits / 8) ∧
      0 < img.bytes_per_pixel ∧
      ∀ i j k, i < img.height → j < img.width → k < img.bytes_per_pixel →
        ∃ p b, img.pixelAt i j = some p ∧ p[k]? = some b ∧
          f[8 + (i * img.width + j) * img.bytes_per_pixel + k]? = some b := by
  obtain ⟨img, h1, hs, hh, hw, hht, hb, hp⟩ := Read_wellFormed_shaped hf
  have hc := hf.1.checks.2.2.2.1
  have hpos : 0 < img.bytes_per_pixel := by
    rw [hb]
    unfold bytesPerPixelOf
    rcases hd with hd | hd <;> rw [hd] <;> norm_num <;> omega
  refine ⟨img, h1, hw, hht, hb, hpos, ?_⟩
  intro i j k hi hj hk
  have hi2 : i < img.pixelData.length := by rw [hs.1]; exact hi
  have hrow := hs.2 _ (List.getElem_mem hi2)
  have hj2 : j < (img.pixelData[i]).length := by rw [hrow.1]; exact hj
  have hpix := hrow.2 _ (List.getElem_mem hj2)
  have hk2 : k < ((img.pixelData[i])[j]).length := by rw [hpix]; exact hk
  refine ⟨(img.pixelData[i])[j], ((img.pixelData[i])[j])[k], ?_, ?_, ?_⟩
  · simp only [T_img.pixelAt, List.getElem?_eq_getElem hi2, List.getElem?_eq_getElem hj2]
  · exact List.getElem?_eq_getElem hk2
  · have e := getElem?_payloadOf img.pixelData img.width img.bytes_per_pixel hs.2 i j k hj hk
    rw [hp, List.getElem?_drop] at e
    rw [Nat.add_assoc, e]
    simp [List.getElem?_eq_getElem hi2, List.getElem?_eq_getElem hj2,
      List.getElem?_eq_getElem hk2]

/-- C9, on a big-endian file of three rows and two columns with three bytes per pixel. -/
theorem Read_decodes_payload_witness :
    (WellFormed sampleBigFile ∧
      ((declaredHdr sampleBigFile).bits = 8 ∨ (declaredHdr sampleBigFile).bits = 16)) ∧
    ∃ img, T_img.Read (some sampleBigFile) = some img ∧
      img.width = widthOf sampleBigFile ∧ img.height = heightOf sampleBigFile ∧
      img.bytes_per_pixel =
        (declaredHdr sampleBigFile).channels * ((declaredHdr sampleBigFile).bits / 8) ∧
      0 < img.bytes_per_pixel ∧
      ∀ i j k, i < img.height → j < img.width → k < img.bytes_per_pixel →
        ∃ p b, img.pixelAt i j = some p ∧ p[k]? = some b ∧
          sampleBigFile[8 + (i * img.width + j) * img.bytes_per_pixel + k]? = some b :=
  ⟨⟨by decide, by decide⟩, Read_decodes_payload sampleBigFile (by decide) (by decide)⟩

/-- C10: on the header read from the bytes `b0 .. b7` by a little-endian
host, `T_hdr::endianness` returns `true` exactly when the marker is 0x4949 or
0x4d4d; for 0x4949 the three fields stay `b2 + 256 * b3`, `b4 + 256 * b5`,
`b6 + 256 * b7`; for 0x4d4d each is byte-swapped once, to `256 * b2 + b3`,
`256 * b4 + b5`, `256 * b6 + b7`; the marker field is never changed. -/
theorem endianness_normalises (b0 b1 b2 b3 b4 b5 b6 b7 : Byte) :
    ((hdrOfBytes b0 b1 b2 b3 b4 b5 b6 b7).endianness.1 = true ↔
      ((hdrOfBytes b0 b1 b2 b3 b4 b5 b6 b7).endian = 0x4949 ∨
        (hdrOfBytes b0 b1 b2 b3 b4 b5 b6 b7).endian = 0x4d4d)) ∧
    ((hdrOfBytes b0 b1 b2 b3 b4 b5 b6 b7).endian = 0x4949 →
      (hdrOfBytes b0 b1 b2 b3 b4 b5 b6 b7).endianness.2.width = b2.val + 256 * b3.val ∧
      (hdrOfBytes b0 b1 b2 b3 b4 b5 b6 b7).endianness.2.height = b4.val + 256 * b5.val ∧
      (hdrOfBytes b0 b1 b2 b3 b4 b5 b6 b7).endianness.2.format = b6.val + 256 * b7.val) ∧
    ((hdrOfBytes b0 b1 b2 b3 b4 b5 b6 b7).endian = 0x4d4d →
      (hdrOfBytes b0 b1 b2 b3 b4 b5 b6 b7).endianness.2.width = 256 * b2.val + b3.val ∧
      (hdrOfBytes b0 b1 b2 b3 b4 b5 b6 b7).endianness.2.height = 256 * b4.val + b5.val ∧
      (hdrOfBytes b0 b1 b2 b3 b4 b5 b6 b7).endianness.2.format = 256 * b6.val + b7.val) ∧
    (hdrOfBytes b0 b1 b2 b3 b4 b5 b6 b7).endianness.2.endian =
      (hdrOfBytes b0 b1 b2 b3 b4 b5 b6 b7).endian ∧
    (hdrOfBytes b0 b1 b2 b3 b4 b5 b6 b7).endian = b0.val + 256 * b1.val := by
  unfold hdrOfBytes
  rw [endianness_words]
  have e01 : word b0 b1 = b0.val + 256 * b1.val := rfl
  have e23 : word b2 b3 = b2.val + 256 * b3.val := rfl
  have e45 : word b4 b5 = b4.val + 256 * b5.val := rfl
  have e67 : word b6 b7 = b6.val + 256 * b7.val := rfl
  have e32 : word b3 b2 = 256 * b2.val + b3.val := Nat.add_comm _ _
  have e54 : word b5 b4 = 256 * b4.val + b5.val := Nat.add_comm _ _
  have e76 : word b7 b6 = 256 * b6.val + b7.val := Nat.add_comm _ _
  by_cases hL : word b0 b1 = 0x4949
  · have hB : ¬ word b0 b1 = 0x4d4d := by omega
    rw [if_pos hL]
    exact ⟨⟨fun _ => Or.inl hL, fun _ => rfl⟩, fun _ => ⟨e23, e45, e67⟩,
      fun h => absurd h hB, rfl, e01⟩
  · by_cases hB : word b0 b1 = 0x4d4d
    · rw [if_neg hL, if_pos hB]
      exact ⟨⟨fun _ => Or.inr hB, fun _ => rfl⟩, fun h => absurd h hL,
        fun _ => ⟨e32, e54, e76⟩, rfl, e01⟩
    · rw [if_neg hL, if_neg hB]
      refine ⟨⟨fun h => ?_, fun h => ?_⟩, fun h => absurd h hL, fun h => absurd h hB, rfl, e01⟩
      · exact absurd h (by simp)
      · rcases h with h | h
        · exact absurd h hL
        · exact absurd h hB

/-- On a file with a valid header `T_img::Read` returns `false` when the
payload is shorter than `width * height * bytesPerPixel` bytes, and when its
length differs from that number modulo `2^32`. -/
theorem Read_rejects_length_mismatch (f : List Byte) (hv : ValidHeader f)
    (h : f.length - 8 < widthOf f * heightOf f * bytesPerPixelOf f ∨
      (f.length - 8) % 4294967296 ≠
        (widthOf f * heightOf f * bytesPerPixelOf f) % 4294967296) :
    T_img.Read (some f) = none := by
  obtain ⟨hm, hz, hu, hc, hb⟩ := hv.checks
  rw [Read_of_length hv.1, decodeWith_checked _ _ _ hv.1 hm hz hu hc hb]
  by_cases hmod : (f.length - 8) % 4294967296 =
      ((declaredHdr f).width * (declaredHdr f).height *
        ((declaredHdr f).channels * ((declaredHdr f).bits / 8))) % 4294967296
  · rcases h with h | h
    · rw [if_neg (not_not.mpr hmod)]
      have hshort : (f.drop 8).length < (declaredHdr f).height *
          ((declaredHdr f).width * ((declaredHdr f).channels * ((declaredHdr f).bits / 8))) := by
        rw [List.length_drop]
        have e : (declaredHdr f).height *
            ((declaredHdr f).width * ((declaredHdr f).channels * ((declaredHdr f).bits / 8))) =
            widthOf f * heightOf f * bytesPerPixelOf f := by
          simp only [widthOf, heightOf, bytesPerPixelOf, declaredHdr]; ring
        rw [e]; exact h
      rw [readGrid_none _ _ _ _ hshort]
    · exact absurd hmod h
  · rw [if_pos hmod]

/-! ## A file of more than `2^32` bytes -/

theorem length_header_cons (b0 b1 b2 b3 b4 b5 b6 b7 : Byte) (l : List Byte) (n : Nat)
    (h : l.length = n) : (b0 :: b1 :: b2 :: b3 :: b4 :: b5 :: b6 :: b7 :: l).length = n + 8 := by
  simp [h]

theorem length_oversizeFile : oversizeFile.length = 4294967305 :=
  length_header_cons _ _ _ _ _ _ _ _ _ 4294967297 (List.length_replicate _ _)

theorem declaredHdr_oversizeFile : declaredHdr oversizeFile = ⟨0x4949, 1, 1, 0x0c⟩ := by
  simp only [oversizeFile, declaredHdr, declaredField, markerOf, word, List.getD_cons_zero,
    List.getD_cons_succ]
  decide

theorem drop_oversizeFile :
    oversizeFile.drop 8 = 0 :: List.replicate 4294967296 0 := by
  simp only [oversizeFile, List.drop_succ_cons, List.drop_zero]
  exact List.replicate_succ 0 4294967296

/-- The part of `T_img::Read` after the byte-order step on the header of a 1x1
image with one byte per pixel: when the length of the file is `9` modulo
`2^32`, the first byte after the header is read as the only pixel. -/
theorem decodeWith_onePixel (n : Nat) (hn : 8 ≤ n) (hmod : (n - 8) % 4294967296 = 1)
    (b : Byte) (r : List Byte) :
    decodeWith ⟨0x4949, 1, 1, 0x0c⟩ n (b :: r) =
      some ⟨⟨0x4949, 1, 1, 0x0c⟩, 1, 1, 1, [[[b]]]⟩ := by
  rw [decodeWith_checked _ _ _ hn (by decide) (by decide) (by decide) (by decide) (by decide)]
  have hbpp : (⟨0x4949, 1, 1, 0x0c⟩ : T_hdr).channels *
      ((⟨0x4949, 1, 1, 0x0c⟩ : T_hdr).bits / 8) = 1 := by decide
  simp only [hbpp, hmod]
  rfl

/-- The length check of `T_img::Read` passes on the file of `2^32 + 9` bytes
and one pixel is read. -/
theorem Read_oversizeFile :
    T_img.Read (some oversizeFile) = some ⟨⟨0x4949, 1, 1, 0x0c⟩, 1, 1, 1, [[[0]]]⟩ := by
  rw [Read_of_length (by rw [length_oversizeFile]; omega), length_oversizeFile,
    declaredHdr_oversizeFile, drop_oversizeFile]
  exact decodeWith_onePixel 4294967305 (by omega) (by omega) 0 _

/-- C8, the failing input: the file of `2^32 + 9` bytes has a valid header
that declares a 1x1 image of one byte per pixel, its payload has `2^32 + 1`
bytes and not the one byte that the header asks for, and `T_img::Read`
succeeds on it. -/
theorem Read_accepts_oversize_payload :
    ValidHeader oversizeFile ∧
    widthOf oversizeFile * heightOf oversizeFile * bytesPerPixelOf oversizeFile = 1 ∧
    oversizeFile.length - 8 = 4294967297 ∧
    T_img.Read (some oversizeFile) = some ⟨⟨0x4949, 1, 1, 0x0c⟩, 1, 1, 1, [[[0]]]⟩ := by
  have hh := declaredHdr_oversizeFile
  have hw : widthOf oversizeFile = 1 := congrArg T_hdr.width hh
  have hht : heightOf oversizeFile = 1 := congrArg T_hdr.height hh
  have hfm : formatOf oversizeFile = 0x0c := congrArg T_hdr.format hh
  have hmk : markerOf oversizeFile = 0x4949 := congrArg T_hdr.endian hh
  refine ⟨⟨by rw [length_oversizeFile]; omega, Or.inl hmk, by rw [hw]; decide,
    by rw [hht]; decide, by rw [hfm]; decide, by rw [hfm]; decide, by rw [hfm]; decide⟩,
    ?_, by rw [length_oversizeFile], Read_oversizeFile⟩
  rw [hw, hht, bytesPerPixelOf, hh]
  decide

/-- C1, the failing input: `T_img::Read` succeeds on the file of `2^32 + 9`
bytes, and `T_img::Write` on the image it returns, with no flip applied and to
a file for which the host accepts nine bytes or more, succeeds and emits nine
bytes, which is not the file. -/
theorem Write_Read_oversize :
    ∃ img, T_img.Read (some oversizeFile) = some img ∧
      ∀ n, 9 ≤ n →
        (img.Write (some n)).1 = true ∧
        (img.Write (some n)).2.2.data = [0x49, 0x49, 1, 0, 1, 0, 0x0c, 0, 0] ∧
        (img.Write (some n)).2.2.data ≠ oversizeFile := by
  refine ⟨_, Read_oversizeFile, fun n hn => ?_⟩
  obtain ⟨w1, -, w3⟩ := Write_shaped ⟨⟨0x4949, 1, 1, 0x0c⟩, 1, 1, 1, [[[0]]]⟩ (by decide) n hn
  have w4 : (T_img.Write ⟨⟨0x4949, 1, 1, 0x0c⟩, 1, 1, 1, [[[0]]]⟩ (some n)).2.2.data =
      [0x49, 0x49, 1, 0, 1, 0, 0x0c, 0, 0] := by
    rw [w3]; decide
  refine ⟨w1, w4, ?_⟩
  rw [w4]
  intro h
  have hl := congrArg List.length h
  rw [length_oversizeFile] at hl
  revert hl
  decide

/-! ## The format word -/

theorem bitField_channels (x : Nat) : bitField x 0 2 = x % 4 := by
  simp [bitField]

theorem bitField_depth (x : Nat) : bitField x 2 3 = x / 4 % 8 := by
  simp [bitField]

theorem bitField_reserved (x : Nat) : bitField x 5 11 = x / 32 % 2048 := by
  simp [bitField]

/-- The bits 5 to 15 of a 16-bit word are all zero exactly when the word is
below 32. -/
theorem testBit_reserved_iff (x : Nat) (hx : x < 65536) :
    (∀ i, 5 ≤ i → i ≤ 15 → x.testBit i = false) ↔ x < 32 := by
  constructor
  · intro h
    apply Nat.lt_pow_two_of_testBit x (n := 5)
    intro i hi
    by_cases h15 : i ≤ 15
    · exact h i hi h15
    · apply Nat.testBit_lt_two_pow
      calc x < 2 ^ 16 := hx
        _ ≤ 2 ^ i := Nat.pow_le_pow_right (by decide) (by omega)
  · intro h i hi _
    apply Nat.testBit_lt_two_pow
    calc x < 2 ^ 5 := h
      _ ≤ 2 ^ i := Nat.pow_le_pow_right (by decide) hi

/-- C15: for a 16-bit format word `T_hdr::unset_check` returns `true` exactly
when the bits 5 to 15 of the word are all zero, that is when the word is
below 32; two words with the same bits 5 to 15 get the same answer, whatever
their bits 0 to 4. -/
theorem unset_check_iff (h : T_hdr) (hf : h.format < 65536) :
    (h.unset_check = true ↔ ∀ i, 5 ≤ i → i ≤ 15 → h.format.testBit i = false) ∧
    (h.unset_check = true ↔ h.format < 32) ∧
    (∀ g : T_hdr, g.format < 65536 →
      bitField g.format 5 11 = bitField h.format 5 11 → g.unset_check = h.unset_check) := by
  have e : h.unset_check = true ↔ h.format < 32 := by
    rw [unset_check_eq h hf]; simp
  refine ⟨e.trans (testBit_reserved_iff h.format hf).symm, e, ?_⟩
  intro g hg hgh
  rw [unset_check_eq h hf, unset_check_eq g hg]
  rw [bitField_reserved, bitField_reserved] at hgh
  by_cases h1 : h.format < 32
  · have h2 : g.format < 32 := by omega
    simp [h1, h2]
  · have h2 : ¬ g.format < 32 := by omega
    simp [h1, h2]

/-- C15, on the format word 0x2c, which has the bit 5 set. -/
theorem unset_check_iff_witness :
    (0x2c : Nat) < 65536 ∧
    (((⟨0x4949, 2, 2, 0x2c⟩ : T_hdr).unset_check = true ↔
        ∀ i, 5 ≤ i → i ≤ 15 → (0x2c : Nat).testBit i = false) ∧
      ((⟨0x4949, 2, 2, 0x2c⟩ : T_hdr).unset_check = true ↔ (0x2c : Nat) < 32) ∧
      (∀ g : T_hdr, g.format < 65536 →
        bitField g.format 5 11 = bitField (0x2c : Nat) 5 11 →
          g.unset_check = (⟨0x4949, 2, 2, 0x2c⟩ : T_hdr).unset_check)) :=
  ⟨by decide, unset_check_iff ⟨0x4949, 2, 2, 0x2c⟩ (by decide)⟩

/-- C16: `T_hdr::channels` is a function of the bits 0 and 1 of the format
word: 1 for 00, 3 for 10, 4 for 11 and 0 for 01; `T_hdr::bits` is a function
of the bits 2 to 4: 1 for 000, 8 for 011, 16 for 100 and 0 for every other
pattern. -/
theorem decode_tables (h : T_hdr) :
    (h.channels =
      if bitField h.format 0 2 = 0 then 1
      else if bitField h.format 0 2 = 2 then 3
      else if bitField h.format 0 2 = 3 then 4
      else 0) ∧
    (bitField h.format 0 2 = 1 ↔ h.channels = 0) ∧
    (h.bits =
      if bitField h.format 2 3 = 0 then 1
      else if bitField h.format 2 3 = 3 then 8
      else if bitField h.format 2 3 = 4 then 16
      else 0) ∧
    ((bitField h.format 2 3 ≠ 0 ∧ bitField h.format 2 3 ≠ 3 ∧ bitField h.format 2 3 ≠ 4) ↔
      h.bits = 0) := by
  rw [bitField_channels, bitField_depth, channels_eq, bits_eq]
  refine ⟨rfl, ?_, rfl, ?_⟩
  · constructor
    · intro h1
      rw [if_neg (by omega), if_neg (by omega), if_neg (by omega)]
    · intro h1
      split_ifs at h1
      omega
  · constructor
    · intro h1
      rw [if_neg h1.1, if_neg h1.2.1, if_neg h1.2.2]
    · intro h1
      split_ifs at h1 with a b c
      exact ⟨a, b, c⟩

/-! ## `flipImage` on a source that cannot be read -/

/-- C14: when `T_img::Read` returns `false` on the source (no such file, fewer
than eight bytes, a header that is not valid, a payload of the wrong length),
`flipImage` returns `false` for any two flags, whatever the host grants for
the destination, and leaves every file as it was: the destination is neither
made nor changed. -/
theorem flipImage_bad_source (fs : FileSystem) (access : WriteAccess)
    (srcFileName dstFileName : String)
    (flipHorizontal flipVertical : Bool) (h : T_img.Read (fs srcFileName) = none) :
    flipImage fs access srcFileName dstFileName flipHorizontal flipVertical = (false, fs) := by
  simp [flipImage, h]

/-- C14, on a source that is not there and on a source that lacks the last
byte of its payload. -/
theorem flipImage_bad_source_witness :
    (T_img.Read (samplePairFs "none.img") = none ∧
      flipImage samplePairFs sampleAccess "none.img" "out.img" true false =
        (false, samplePairFs)) ∧
    (T_img.Read (samplePairFs "t.img") = none ∧
      flipImage samplePairFs sampleAccess "t.img" "a.img" false true =
        (false, samplePairFs)) :=
  ⟨⟨by decide,
    flipImage_bad_source samplePairFs sampleAccess "none.img" "out.img" true false (by decide)⟩,
   ⟨by decide,
    flipImage_bad_source samplePairFs sampleAccess "t.img" "a.img" false true (by decide)⟩⟩

/-! ## Comparison of images and of files -/

theorem T_hdr.operator_eq_hdr_self (h : T_hdr) : T_hdr.operator_eq h h = true := by
  simp [T_hdr.operator_eq]

theorem T_img.operator_eq_img_self (img : T_img) : T_img.operator_eq img img = true := by
  simp [T_img.operator_eq]

/-- Function `identicalFiles` returns `true` exactly when `T_img::Read`
succeeds on both files. -/
theorem identicalFiles_eq (fs : FileSystem) (fileName1 fileName2 : String) :
    identicalFiles fs fileName1 fileName2 =
      ((T_img.Read (fs fileName1)).isSome && (T_img.Read (fs fileName2)).isSome) := by
  unfold identicalFiles
  cases h1 : T_img.Read (fs fileName1) with
  | none => rfl
  | some file1 =>
    cases h2 : T_img.Read (fs fileName2) with
    | none => rfl
    | some file2 =>
      simp [T_hdr.operator_eq_hdr_self, T_img.operator_eq_img_self]

/-- The byte that the code reads at `pixelData[i][j].imageData[k]` when the
three indices are inside the grid. -/
theorem byteAt_eq_imageDataAt (img : T_img) (hs : img.Shaped) (i j k : Nat)
    (hi : i < img.height) (hj : j < img.width) (hk : k < img.bytes_per_pixel) :
    img.byteAt i j k = some (img.imageDataAt i j k) := by
  have hi2 : i < img.pixelData.length := by rw [hs.1]; exact hi
  have hrow := hs.2 _ (List.getElem_mem hi2)
  have hj2 : j < (img.pixelData[i]).length := by rw [hrow.1]; exact hj
  have hpix := hrow.2 _ (List.getElem_mem hj2)
  have hk2 : k < ((img.pixelData[i])[j]).length := by rw [hpix]; exact hk
  simp [T_img.byteAt, T_img.pixelAt, T_img.imageDataAt, List.getD_eq_getElem?_getD,
    List.getElem?_eq_getElem hi2, List.getElem?_eq_getElem hj2, List.getElem?_eq_getElem hk2]

/-- The grid that the loops of `T_img::Read` return has `i` rows of `w`
pixels of `bpp` bytes, and its bytes are the first bytes of the stream. -/
theorem readGrid_shape {i w bpp : Nat} {s r : List Byte} {g : List (List Pixel)}
    (h : readGrid i w bpp s = some (g, r)) :
    g.length = i ∧ (∀ row ∈ g, row.length = w ∧ ∀ p ∈ row, p.length = bpp) ∧
      s = payloadOf g ++ r ∧ (payloadOf g).length = i * (w * bpp) := by
  by_cases hlen : i * (w * bpp) ≤ s.length
  · obtain ⟨g2, h1, h2, h3, h4⟩ := readGrid_some w bpp i s hlen
    rw [h1] at h
    simp only [Option.some.injEq, Prod.mk.injEq] at h
    obtain ⟨rfl, rfl⟩ := h
    refine ⟨h2, h3, ?_, ?_⟩
    · rw [payloadOf, h4, List.take_append_drop]
    · rw [payloadOf, h4, List.length_take]; omega
  · rw [readGrid_none w bpp i s (by omega)] at h
    exact absurd h (by simp)

/-- What a successful `T_img::Read` says about the file and the image. -/
theorem Read_some_spec {f : List Byte} {img : T_img} (h : T_img.Read (some f) = some img) :
    ValidHeader f ∧ img.hdr = declaredHdr f ∧ img.width = widthOf f ∧
    img.height = heightOf f ∧ img.bytes_per_pixel = bytesPerPixelOf f ∧ img.Shaped ∧
    (payloadOf img.pixelData).length = widthOf f * heightOf f * bytesPerPixelOf f ∧
    ∃ r, f.drop 8 = payloadOf img.pixelData ++ r := by
  have hv := ValidHeader.of_Read h
  obtain ⟨hm, hz, hu, hc, hb⟩ := hv.checks
  rw [Read_of_length hv.1, decodeWith_checked _ _ _ hv.1 hm hz hu hc hb] at h
  split_ifs at h with hchk
  cases hg : readGrid (declaredHdr f).height (declaredHdr f).width
      ((declaredHdr f).channels * ((declaredHdr f).bits / 8)) (List.drop 8 f) with
  | none => rw [hg] at h; exact absurd h (by simp)
  | some gr =>
    obtain ⟨g, r⟩ := gr
    rw [hg] at h
    simp only [Option.some.injEq] at h
    subst h
    obtain ⟨g1, g2, g3, g4⟩ := readGrid_shape hg
    refine ⟨hv, rfl, rfl, rfl, rfl, ⟨g1, g2⟩, ?_, r, g3⟩
    rw [g4]
    simp only [widthOf, heightOf, bytesPerPixelOf, declaredHdr]
    ring

theorem Read_some_input {input : Option (List Byte)} {img : T_img}
    (h : T_img.Read input = some img) : ∃ f, input = some f := by
  cases input with
  | none => exact absurd h (by simp [T_img.Read])
  | some f => exact ⟨f, rfl⟩

/-- An image that `T_img::Read` returns satisfies the invariant. -/
theorem Read_Inv {input : Option (List Byte)} {img : T_img}
    (h : T_img.Read input = some img) : img.Inv := by
  obtain ⟨f, rfl⟩ := Read_some_input h
  obtain ⟨-, hh, hw, hht, -, hs, -, -⟩ := Read_some_spec h
  refine ⟨hs, ?_, ?_⟩
  · rw [hw, hh]; rfl
  · rw [hht, hh]; rfl

/-- The loops of `operator==` on two images of the same dimensions that
satisfy the invariant. -/
theorem operator_eq_iff_of_Inv (a b : T_img) (ha : a.Inv) (hb : b.Inv)
    (hw : a.width = b.width) (hh : a.height = b.height)
    (hbpp : a.bytes_per_pixel = b.bytes_per_pixel) :
    T_img.operator_eq a b = true ↔
      ∀ i j k, i < a.height → j < a.width → k < a.bytes_per_pixel →
        ∃ x, a.byteAt i j k = some x ∧ b.byteAt i j k = some x := by
  obtain ⟨has, haw, hah⟩ := ha
  obtain ⟨hbs, -, -⟩ := hb
  simp only [T_img.operator_eq, List.all_eq_true, List.mem_range, decide_eq_true_eq]
  rw [← haw, ← hah]
  constructor
  · intro h i j k hi hj hk
    refine ⟨a.imageDataAt i j k, byteAt_eq_imageDataAt a has i j k hi hj hk, ?_⟩
    rw [h i hi j hj k hk]
    exact byteAt_eq_imageDataAt b hbs i j k (hh ▸ hi) (hw ▸ hj) (hbpp ▸ hk)
  · intro h i hi j hj k hk
    obtain ⟨x, h1, h2⟩ := h i j k hi hj hk
    rw [byteAt_eq_imageDataAt a has i j k hi hj hk] at h1
    rw [byteAt_eq_imageDataAt b hbs i j k (hh ▸ hi) (hw ▸ hj) (hbpp ▸ hk)] at h2
    simp only [Option.some.injEq] at h1 h2
    rw [h1, h2]

/-- C13: for two images `a` and `b` that `T_img::Read` has decoded, of the
same width, height and bytes per pixel, `operator==` returns `true` exactly
when the byte `k` of the pixel at row `i`, column `j` is the same in both, for
all `i < height`, `j < width`, `k < bytes_per_pixel`; of the headers only the
width and the height of `a` enter the result. -/
theorem operator_eq_iff (ia ib : Option (List Byte)) (a b : T_img)
    (ha : T_img.Read ia = some a) (hb : T_img.Read ib = some b)
    (hw : a.width = b.width) (hh : a.height = b.height)
    (hbpp : a.bytes_per_pixel = b.bytes_per_pixel) :
    (T_img.operator_eq a b = true ↔
      ∀ i j k, i < a.height → j < a.width → k < a.bytes_per_pixel →
        ∃ x, a.byteAt i j k = some x ∧ b.byteAt i j k = some x) ∧
    (∀ h1 h2 : T_hdr, h1.width = a.hdr.width → h1.height = a.hdr.height →
      T_img.operator_eq { a with hdr := h1 } { b with hdr := h2 } = T_img.operator_eq a b) := by
  refine ⟨operator_eq_iff_of_Inv a b (Read_Inv ha) (Read_Inv hb) hw hh hbpp, ?_⟩
  intro h1 h2 e1 e2
  simp only [T_img.operator_eq, T_img.imageDataAt, e1, e2]

/-- C13, on the images decoded from the 2x2 file and from the file with the
last byte changed. -/
theorem operator_eq_iff_witness :
    (T_img.Read (some sampleFile) = some sampleDecoded ∧
      T_img.Read (some sampleFileChanged) = some sampleDecodedChanged ∧
      sampleDecoded.width = sampleDecodedChanged.width ∧
      sampleDecoded.height = sampleDecodedChanged.height ∧
      sampleDecoded.bytes_per_pixel = sampleDecodedChanged.bytes_per_pixel) ∧
    ((T_img.operator_eq sampleDecoded sampleDecodedChanged = true ↔
      ∀ i j k, i < sampleDecoded.height → j < sampleDecoded.width →
        k < sampleDecoded.bytes_per_pixel →
        ∃ x, sampleDecoded.byteAt i j k = some x ∧ sampleDecodedChanged.byteAt i j k = some x) ∧
    (∀ h1 h2 : T_hdr, h1.width = sampleDecoded.hdr.width →
      h1.height = sampleDecoded.hdr.height →
      T_img.operator_eq { sampleDecoded with hdr := h1 } { sampleDecodedChanged with hdr := h2 } =
        T_img.operator_eq sampleDecoded sampleDecodedChanged)) ∧
    T_img.operator_eq sampleDecoded sampleDecodedChanged = false ∧
    T_img.operator_eq sampleDecoded sampleDecoded = true :=
  ⟨⟨by decide, by decide, by decide, by decide, by decide⟩,
   operator_eq_iff (some sampleFile) (some sampleFileChanged) sampleDecoded sampleDecodedChanged
     (by decide) (by decide) (by decide) (by decide) (by decide),
   by decide, by decide⟩

/-- C12: for two well-formed files with the same eight header bytes and the
same payload, and so for a file and itself, `identicalFiles` returns `true`. -/
theorem identicalFiles_accepts_identical (fs : FileSystem) (fileName1 fileName2 : String)
    (f1 f2 : List Byte) (h1 : fs fileName1 = some f1) (h2 : fs fileName2 = some f2)
    (hw1 : WellFormed f1) (hw2 : WellFormed f2)
    (hhdr : f1.take 8 = f2.take 8) (hpay : f1.drop 8 = f2.drop 8) :
    identicalFiles fs fileName1 fileName2 = true := by
  have e : f1 = f2 := by
    rw [← List.take_append_drop 8 f1, ← List.take_append_drop 8 f2, hhdr, hpay]
  obtain ⟨g1, r1, -⟩ := Read_wellFormed hw1
  obtain ⟨g2, r2, -⟩ := Read_wellFormed hw2
  rw [identicalFiles_eq, h1, h2, r1, r2]
  rfl

/-- C12, on a file and itself and on two files with the same bytes. -/
theorem identicalFiles_accepts_identical_witness :
    (samplePairFs "a.img" = some sampleFile ∧ samplePairFs "a.img" = some sampleFile ∧
      WellFormed sampleFile ∧ WellFormed sampleFile ∧
      sampleFile.take 8 = sampleFile.take 8 ∧ sampleFile.drop 8 = sampleFile.drop 8) ∧
    identicalFiles samplePairFs "a.img" "a.img" = true :=
  ⟨⟨by decide, by decide, by decide, by decide, rfl, rfl⟩,
   identicalFiles_accepts_identical samplePairFs "a.img" "a.img" sampleFile sampleFile
     (by decide) (by decide) (by decide) (by decide) rfl rfl⟩

/-- C11, the failing input: `a.img` and `b.img` are well-formed, have the same
eight header bytes and payloads that differ in the last byte, and
`identicalFiles` returns `true` on them. -/
theorem identicalFiles_accepts_differing :
    samplePairFs "a.img" = some sampleFile ∧ samplePairFs "b.img" = some sampleFileChanged ∧
    WellFormed sampleFile ∧ WellFormed sampleFileChanged ∧
    sampleFile.take 8 = sampleFileChanged.take 8 ∧
    sampleFile.drop 8 ≠ sampleFileChanged.drop 8 ∧
    identicalFiles samplePairFs "a.img" "b.img" = true := by
  decide

/-! ## The depth of one bit, the length check -/

/-- On a file with a valid header `T_img::Read` is the length check followed
by the loops that read the grid. -/
theorem Read_valid_eq (f : List Byte) (hv : ValidHeader f) :
    T_img.Read (some f) =
      if lengthMismatch (declaredHdr f) f.length = true then none
      else
        match readGrid (heightOf f) (widthOf f) (bytesPerPixelOf f) (f.drop 8) with
        | none => none
        | some (g, _) => some ⟨declaredHdr f, widthOf f, heightOf f, bytesPerPixelOf f, g⟩ := by
  obtain ⟨hm, hz, hu, hc, hb⟩ := hv.checks
  rw [Read_of_length hv.1]
  unfold decodeWith lengthMismatch
  rw [if_neg (not_not.mpr hm), if_neg hz, if_neg (by simp [hu]), if_neg hc, if_neg hb]
  simp only [decide_eq_true_eq, u32_bytes_per_pixel]
  rfl

theorem bytesPerPixelOf_oneBit (f : List Byte) (hd : bitField (formatOf f) 2 3 = 0) :
    bytesPerPixelOf f = 0 := by
  rw [bitField_depth] at hd
  have hb : (declaredHdr f).bits = 1 := by
    rw [bits_eq]
    exact if_pos hd
  rw [bytesPerPixelOf, hb]
  simp

/-- C17, as the code has it: for a file with a valid header and the code 000
of the bit depth the number of bytes per pixel is zero; `T_img::Read` succeeds
on the file of the eight header bytes only and returns an image of
`height` rows of `width` pixels without bytes; it fails when the header is
followed by at least one and fewer than `2^32` bytes. -/
theorem Read_oneBit (f : List Byte) (hv : ValidHeader f)
    (hd : bitField (formatOf f) 2 3 = 0) :
    bytesPerPixelOf f = 0 ∧
    (f.length = 8 →
      ∃ img, T_img.Read (some f) = some img ∧ img.bytes_per_pixel = 0 ∧
        img.width = widthOf f ∧ img.height = heightOf f ∧
        ∀ i j, i < img.height → j < img.width → img.pixelAt i j = some []) ∧
    (8 < f.length → f.length < 8 + 4294967296 → T_img.Read (some f) = none) := by
  have hbpp := bytesPerPixelOf_oneBit f hd
  refine ⟨hbpp, ?_, ?_⟩
  · intro hlen
    have hwf : WellFormed f := ⟨hv, by rw [hbpp, hlen]; simp⟩
    obtain ⟨img, h1, hs, -, hw, hh, hb, -⟩ := Read_wellFormed_shaped hwf
    refine ⟨img, h1, by rw [hb, hbpp], hw, hh, ?_⟩
    intro i j hi hj
    have hi2 : i < img.pixelData.length := by rw [hs.1]; exact hi
    have hrow := hs.2 _ (List.getElem_mem hi2)
    have hj2 : j < (img.pixelData[i]).length := by rw [hrow.1]; exact hj
    have hpix := hrow.2 _ (List.getElem_mem hj2)
    rw [hb, hbpp] at hpix
    simp only [T_img.pixelAt, List.getElem?_eq_getElem hi2, List.getElem?_eq_getElem hj2]
    rw [List.length_eq_zero.mp hpix]
  · intro h8 hlt
    apply Read_rejects_length_mismatch f hv
    right
    rw [hbpp]
    omega

/-- C17, on the header of a 2x2 image of one bit per channel with nothing
after it. -/
theorem Read_oneBit_witness :
    (ValidHeader oneBitFile ∧ bitField (formatOf oneBitFile) 2 3 = 0) ∧
    (bytesPerPixelOf oneBitFile = 0 ∧
    (oneBitFile.length = 8 →
      ∃ img, T_img.Read (some oneBitFile) = some img ∧ img.bytes_per_pixel = 0 ∧
        img.width = widthOf oneBitFile ∧ img.height = heightOf oneBitFile ∧
        ∀ i j, i < img.height → j < img.width → img.pixelAt i j = some []) ∧
    (8 < oneBitFile.length → oneBitFile.length < 8 + 4294967296 →
      T_img.Read (some oneBitFile) = none)) :=
  ⟨⟨by decide, by decide⟩, Read_oneBit oneBitFile (by decide) (by decide)⟩

/-- C17, the counterexample: the eight header bytes of a 2x2 image of one bit
per channel form a file with a valid header and the code 000 of the bit
depth; `T_img::Read` succeeds on it and returns an image with
`bytes_per_pixel = 0`, whose four pixels have no bytes. -/
theorem Read_accepts_oneBit :
    ValidHeader oneBitFile ∧ bitField (formatOf oneBitFile) 2 3 = 0 ∧
    T_img.Read (some oneBitFile) = some ⟨⟨0x4949, 2, 2, 0⟩, 2, 2, 0, [[[], []], [[], []]]⟩ := by
  decide

/-- C18, the failing input: the file of the eight header bytes of an image of
width and height 0x8000 with four bytes per pixel has a valid header and no
payload, where `2^32` bytes are declared; the comparison of the length check
is false on it, the loops that read the grid are entered and fail, and
`T_img::Read` returns `false` only there. -/
theorem lengthCheck_passes_wrapFile :
    ValidHeader wrapFile ∧ wrapFile.length - 8 = 0 ∧
    widthOf wrapFile * heightOf wrapFile * bytesPerPixelOf wrapFile = 4294967296 ∧
    lengthMismatch (declaredHdr wrapFile) wrapFile.length = false ∧
    readGrid (heightOf wrapFile) (widthOf wrapFile) (bytesPerPixelOf wrapFile)
      (wrapFile.drop 8) = none ∧
    T_img.Read (some wrapFile) = none := by
  have hv : ValidHeader wrapFile := by decide
  have hg : readGrid (heightOf wrapFile) (widthOf wrapFile) (bytesPerPixelOf wrapFile)
      (wrapFile.drop 8) = none :=
    readGrid_none _ _ _ _ (by decide)
  have hm : lengthMismatch (declaredHdr wrapFile) wrapFile.length = false := by decide
  refine ⟨hv, by decide, by decide, hm, hg, ?_⟩
  rw [Read_valid_eq wrapFile hv, hm, hg]
  rfl

/-! ## The invariant of an image -/

theorem HorizontalFlip_Inv (img : T_img) (h : img.Inv) :
    img.HorizontalFlip.Inv ∧ img.HorizontalFlip.hdr = img.hdr ∧
    img.HorizontalFlip.width = img.width ∧ img.HorizontalFlip.height = img.height ∧
    img.HorizontalFlip.bytes_per_pixel = img.bytes_per_pixel :=
  ⟨⟨HorizontalFlip_Shaped img h.1, h.2.1, h.2.2⟩, rfl, rfl, rfl, rfl⟩

theorem VerticalFlip_Inv (img : T_img) (h : img.Inv) :
    img.VerticalFlip.Inv ∧ img.VerticalFlip.hdr = img.hdr ∧
    img.VerticalFlip.width = img.width ∧ img.VerticalFlip.height = img.height ∧
    img.VerticalFlip.bytes_per_pixel = img.bytes_per_pixel :=
  ⟨⟨VerticalFlip_Shaped img h.1, h.2.1, h.2.2⟩, rfl, rfl, rfl, rfl⟩

/-- A sequence of flips keeps the invariant and the four fields beside the grid. -/
theorem applyFlips_Inv (flips : List Bool) : ∀ (img : T_img), img.Inv →
    (applyFlips flips img).Inv ∧ (applyFlips flips img).hdr = img.hdr ∧
    (applyFlips flips img).width = img.width ∧ (applyFlips flips img).height = img.height ∧
    (applyFlips flips img).bytes_per_pixel = img.bytes_per_pixel := by
  induction flips with
  | nil => intro img h; exact ⟨h, rfl, rfl, rfl, rfl⟩
  | cons b bs ih =>
    intro img h
    cases b with
    | true =>
      obtain ⟨h1, e1, e2, e3, e4⟩ := HorizontalFlip_Inv img h
      obtain ⟨k1, f1, f2, f3, f4⟩ := ih img.HorizontalFlip h1
      exact ⟨k1, f1.trans e1, f2.trans e2, f3.trans e3, f4.trans e4⟩
    | false =>
      obtain ⟨h1, e1, e2, e3, e4⟩ := VerticalFlip_Inv img h
      obtain ⟨k1, f1, f2, f3, f4⟩ := ih img.VerticalFlip h1
      exact ⟨k1, f1.trans e1, f2.trans e2, f3.trans e3, f4.trans e4⟩

/-- On an image with all its pixels in place every index inside the
dimensions hits a pixel of `bytes_per_pixel` bytes, and every byte of it. -/
theorem T_img.Shaped.in_bounds (img : T_img) (hs : img.Shaped) :
    (∀ i, i < img.height → ∃ row, img.rowAt i = some row ∧ row.length = img.width) ∧
    (∀ i j, i < img.height → j < img.width →
      ∃ p, img.pixelAt i j = some p ∧ p.length = img.bytes_per_pixel) ∧
    (∀ i j k, i < img.height → j < img.width → k < img.bytes_per_pixel →
      ∃ x, img.byteAt i j k = some x) := by
  refine ⟨?_, ?_, ?_⟩
  · intro i hi
    have hi2 : i < img.pixelData.length := by rw [hs.1]; exact hi
    exact ⟨img.pixelData[i], by simp [T_img.rowAt, List.getElem?_eq_getElem hi2],
      (hs.2 _ (List.getElem_mem hi2)).1⟩
  · intro i j hi hj
    have hi2 : i < img.pixelData.length := by rw [hs.1]; exact hi
    have hrow := hs.2 _ (List.getElem_mem hi2)
    have hj2 : j < (img.pixelData[i]).length := by rw [hrow.1]; exact hj
    refine ⟨(img.pixelData[i])[j], ?_, hrow.2 _ (List.getElem_mem hj2)⟩
    simp only [T_img.pixelAt, List.getElem?_eq_getElem hi2, List.getElem?_eq_getElem hj2]
  · intro i j k hi hj hk
    exact ⟨_, byteAt_eq_imageDataAt img hs i j k hi hj hk⟩

/-- C19: an image that `T_img::Read` returns has a grid of `height` rows of
`width` pixels of `bytes_per_pixel` bytes, with `width` and `height` those of
the header; either flip keeps this invariant and the fields `hdr`, `width`,
`height` and `bytes_per_pixel`; so after any sequence of flips the rows that
`VerticalFlip` swaps, the pixels that `HorizontalFlip` swaps and `Write`
emits, and the bytes that `operator==` compares, within the bounds of the
header, are all there. -/
theorem Read_shape_invariant (input : Option (List Byte)) (img : T_img)
    (h : T_img.Read input = some img) :
    (img.pixelData.length = img.height ∧
      (∀ row ∈ img.pixelData, row.length = img.width ∧
        ∀ p ∈ row, p.length = img.bytes_per_pixel) ∧
      img.width = img.hdr.width ∧ img.height = img.hdr.height) ∧
    (∀ im : T_img, im.Inv →
      (im.HorizontalFlip.Inv ∧ im.HorizontalFlip.hdr = im.hdr ∧
        im.HorizontalFlip.width = im.width ∧ im.HorizontalFlip.height = im.height ∧
        im.HorizontalFlip.bytes_per_pixel = im.bytes_per_pixel) ∧
      (im.VerticalFlip.Inv ∧ im.VerticalFlip.hdr = im.hdr ∧
        im.VerticalFlip.width = im.width ∧ im.VerticalFlip.height = im.height ∧
        im.VerticalFlip.bytes_per_pixel = im.bytes_per_pixel)) ∧
    (∀ flips : List Bool,
      (applyFlips flips img).Inv ∧
      (∀ i, i < (applyFlips flips img).height / 2 →
        (∃ row, (applyFlips flips img).rowAt i = some row) ∧
        ∃ row, (applyFlips flips img).rowAt ((applyFlips flips img).height - 1 - i) = some row) ∧
      (∀ i j, i < (applyFlips flips img).width / 2 → j < (applyFlips flips img).height →
        (∃ p, (applyFlips flips img).pixelAt j i = some p) ∧
        ∃ p, (applyFlips flips img).pixelAt j ((applyFlips flips img).width - 1 - i) = some p) ∧
      (∀ i j, i < (applyFlips flips img).height → j < (applyFlips flips img).width →
        ∃ p, (applyFlips flips img).pixelAt i j = some p ∧
          p.length = (applyFlips flips img).bytes_per_pixel) ∧
      (∀ i j k, i < (applyFlips flips img).hdr.height → j < (applyFlips flips img).hdr.width →
        k < (applyFlips flips img).bytes_per_pixel →
        ∃ x, (applyFlips flips img).byteAt i j k = some x)) := by
  have hinv := Read_Inv h
  refine ⟨⟨hinv.1.1, hinv.1.2, hinv.2.1, hinv.2.2⟩,
    fun im him => ⟨HorizontalFlip_Inv im him, VerticalFlip_Inv im him⟩, fun flips => ?_⟩
  obtain ⟨him, -, -, -, -⟩ := applyFlips_Inv flips img hinv
  obtain ⟨b1, b2, b3⟩ := T_img.Shaped.in_bounds _ him.1
  refine ⟨him, ?_, ?_, b2, ?_⟩
  · intro i hi
    obtain ⟨r1, e1, -⟩ := b1 i (by omega)
    obtain ⟨r2, e2, -⟩ := b1 ((applyFlips flips img).height - 1 - i) (by omega)
    exact ⟨⟨r1, e1⟩, ⟨r2, e2⟩⟩
  · intro i j hi hj
    obtain ⟨p1, e1, -⟩ := b2 j i hj (by omega)
    obtain ⟨p2, e2, -⟩ := b2 j ((applyFlips flips img).width - 1 - i) hj (by omega)
    exact ⟨⟨p1, e1⟩, ⟨p2, e2⟩⟩
  · intro i j k hi hj hk
    rw [← him.2.2] at hi
    rw [← him.2.1] at hj
    exact b3 i j k hi hj hk

/-- C19, on the image decoded from the big-endian file of three rows and two
columns. -/
theorem Read_shape_invariant_witness :
    T_img.Read (some sampleBigFile) = some sampleBigDecoded ∧
    sampleBigDecoded.Inv ∧
    (applyFlips [true, false] sampleBigDecoded).Inv ∧
    ∀ i j, i < (applyFlips [true, false] sampleBigDecoded).height →
      j < (applyFlips [true, false] sampleBigDecoded).width →
      ∃ p, (applyFlips [true, false] sampleBigDecoded).pixelAt i j = some p ∧
        p.length = (applyFlips [true, false] sampleBigDecoded).bytes_per_pixel :=
  have h := Read_shape_invariant (some sampleBigFile) sampleBigDecoded (by decide)
  ⟨by decide, ⟨⟨h.1.1, h.1.2.1⟩, h.1.2.2.1, h.1.2.2.2⟩, (h.2.2 [true, false]).1,
    (h.2.2 [true, false]).2.2.2.1⟩

/-! ## Writing an image and reading it back -/

theorem ValidHeader.congr {f1 f2 : List Byte} (hv : ValidHeader f1) (h8 : 8 ≤ f2.length)
    (e : declaredHdr f2 = declaredHdr f1) : ValidHeader f2 := by
  have em : markerOf f2 = markerOf f1 := congrArg T_hdr.endian e
  have ew : widthOf f2 = widthOf f1 := congrArg T_hdr.width e
  have eh : heightOf f2 = heightOf f1 := congrArg T_hdr.height e
  have ef : formatOf f2 = formatOf f1 := congrArg T_hdr.format e
  unfold ValidHeader
  rw [em, ew, eh, ef]
  exact ⟨h8, hv.2⟩

end Zrcadleni
